import Mathlib

/-!
Verification development for the inventory projection layer of the
unleash-mcp server (`src/resources/unleashResources.ts`) and its score
classifiers (`src/detection/flagScoring.ts`, risk patterns module).

Shallow embedding conventions:
* JavaScript strings are modelled as `List Char` (`Str`).
* JavaScript finite numbers that are used as integers (timestamps,
  limits, offsets, parsed query parameters) are modelled as `Int`; an
  absent (`undefined`) or non-finite value is modelled as `none` of
  `Option Int`, matching the `typeof x === 'number' && Number.isFinite(x)`
  guards in the source, under which non-finite values behave exactly like
  absent ones.  `Math.floor` is the identity on integer inputs.
* Confidence scores (arbitrary JS numbers compared against the literals
  0.7 / 0.4, with no arithmetic performed on them) are modelled as `ℚ`.
* `string.localeCompare` is modelled as code-unit lexicographic
  comparison returning -1/0/1 (`strCmp`); only its sign is ever used.
* An optional `createdAt` ISO string consumed solely through
  `Date.parse` is modelled by its parse result: `Option Int`, where
  `none` stands for "missing or unparseable (NaN)".
* `Array.prototype.sort` with a comparator is modelled as a stable
  insertion sort (`sortCmp`): for a consistent comparator this is the
  unique stable order required by the ECMAScript specification.
* The module-level cache (`cachedProjects`, `cachedFeatureFlags`) is
  threaded explicitly as a `CacheState` value; the asynchronous
  `unleashClient.listProjects()` / `listFeatureFlags(projectId)` calls
  are modelled by an `Except`-valued argument giving the outcome the
  remote collaborator would produce, and each cache operation also
  reports the number of times it invoked that collaborator.
-/

/-- JavaScript strings, modelled as lists of characters. -/
abbrev Str : Type := List Char

/-- Coercion from Lean string literals into the `Str` model. -/
def lit (s : String) : Str := s.data

/-- Sign-valued comparison of two characters by code unit. -/
def charCmp (a b : Char) : Int :=
  if a.toNat < b.toNat then -1 else if b.toNat < a.toNat then 1 else 0

/-- Model of `String.prototype.localeCompare`: sign-valued lexicographic
comparison by code unit (the source only ever uses the sign). -/
def strCmp : Str → Str → Int
  | [], [] => 0
  | [], _ :: _ => -1
  | _ :: _, [] => 1
  | a :: as, b :: bs => if a.toNat < b.toNat then -1 else if b.toNat < a.toNat then 1 else strCmp as bs

/-- Insertion step of the stable sort: `x` is placed before the first
element that does not compare strictly smaller than it. -/
def insertCmp (cmp : α → α → Int) (x : α) : List α → List α
  | [] => [x]
  | y :: ys => if cmp x y ≤ 0 then x :: y :: ys else y :: insertCmp cmp x ys

/-- Stable sort by a JS-style comparator: model of
`Array.prototype.sort(cmp)` (ES2019+ requires stability; for a
consistent comparator the result is uniquely determined). -/
def sortCmp (cmp : α → α → Int) : List α → List α
  | [] => []
  | x :: xs => insertCmp cmp x (sortCmp cmp xs)

/-- Sort order accepted by the resource layer (`'asc' | 'desc'`). -/
inductive JsOrder where
  | asc
  | desc
deriving DecidableEq, Repr

/-- Numeric direction used by both comparators:
`order === 'asc' ? 1 : -1`. -/
def JsOrder.direction : JsOrder → Int
  | .asc => 1
  | .desc => -1

/-- Serialization of an order value (`'asc'`/`'desc'`). -/
def JsOrder.toStr : JsOrder → Str
  | .asc => lit "asc"
  | .desc => lit "desc"

/-- Embedding of `UnleashProjectSummary` (`src/unleash/client.ts`),
restricted to the fields the projector reads plus the identifier; the
optional `createdAt` ISO string is represented by its `Date.parse`
value (`none` = missing or unparseable). -/
structure UnleashProjectSummary where
  id : Str
  name : Str
  description : Option Str := none
  mode : Option Str := none
  createdAt : Option Int
deriving DecidableEq, Repr

/-- Embedding of `FeatureFlagSummary` (`src/unleash/client.ts`); `name`
is kept optional because the sorter guards it with `?? ''`, and
`createdAt` is represented by its `Date.parse` value. -/
structure FeatureFlagSummary where
  name : Option Str
  description : Option Str := none
  project : Str := []
  archived : Option Bool := none
  impressionData : Option Bool := none
  createdAt : Option Int
deriving DecidableEq, Repr

/-- Comparator passed to `sort` inside `sortProjects`
(`unleashResources.ts:247-270`): dated entries compare before undated
ones in either direction; two dated entries compare by timestamp times
the direction, falling back to name; two undated entries compare by
name times the direction. -/
def projectCompare (direction : Int) (a b : UnleashProjectSummary) : Int :=
  match a.createdAt, b.createdAt with
  | some _, none => -1
  | none, some _ => 1
  | some dateA, some dateB =>
      if dateA = dateB then strCmp a.name b.name * direction
      else (dateA - dateB) * direction
  | none, none => strCmp a.name b.name * direction

/-- Embedding of `sortProjects` (`unleashResources.ts:241-271`); the
source sorts a spread copy `[...projects]`, so the input list is not
mutated — in this value-level embedding the cache state is threaded
separately and never receives the sorted list. -/
def sortProjects (projects : List UnleashProjectSummary) (order : JsOrder) :
    List UnleashProjectSummary :=
  sortCmp (projectCompare order.direction) projects

/-- Comparator passed to `sort` inside `sortFeatureFlags`
(`unleashResources.ts:279-295`): primary key is the (defaulted) name
times the direction; identical names compare by timestamp times the
direction when both dates parse, and are left equal (stable) otherwise. -/
def flagCompare (direction : Int) (a b : FeatureFlagSummary) : Int :=
  let nameA := a.name.getD []
  let nameB := b.name.getD []
  if nameA = nameB then
    match a.createdAt, b.createdAt with
    | some dateA, some dateB => (dateA - dateB) * direction
    | _, _ => 0
  else strCmp nameA nameB * direction

/-- Embedding of `sortFeatureFlags` (`unleashResources.ts:273-296`). -/
def sortFeatureFlags (flags : List FeatureFlagSummary) (order : JsOrder) :
    List FeatureFlagSummary :=
  sortCmp (flagCompare order.direction) flags

/-- Result record of `applyPagination`. -/
structure PageResult (α : Type u) where
  slice : List α
  nextOffset : Option Int
deriving DecidableEq, Repr

/-- Embedding of `applyPagination` (`unleashResources.ts:298-323`).
`none` for `limit`/`offset` covers both `undefined` and non-finite
numbers (the source's `typeof … === 'number' && Number.isFinite(…)`
guard); `Math.floor` is the identity on the integer inputs modelled
here, and `Array.prototype.slice` with the clamped non-negative bounds
is `drop`/`take`. -/
def applyPagination (items : List α) (limit offset : Option Int) : PageResult α :=
  let safeLimit : Option Int := limit.map (fun l => max 0 l)
  let safeOffset : Int := (offset.map (fun o => max 0 o)).getD 0
  let slice : List α :=
    match safeLimit with
    | some l => (items.drop safeOffset.toNat).take l.toNat
    | none => items.drop safeOffset.toNat
  let nextOffset : Option Int :=
    match safeLimit with
    | some l => if safeOffset + l < (items.length : Int) then some (safeOffset + l) else none
    | none => none
  ⟨slice, nextOffset⟩

/-- Confidence buckets (`src/detection/flagScoring.ts`). -/
inductive ConfidenceLevel where
  | high
  | medium
  | low
deriving DecidableEq, Repr

/-- Recommendations derived from a confidence level. -/
inductive Recommendation where
  | use_existing
  | ask_user
  | create_new
deriving DecidableEq, Repr

/-- Embedding of `CONFIDENCE_THRESHOLDS.high` (0.7). -/
def CONFIDENCE_THRESHOLD_HIGH : ℚ := 7 / 10

/-- Embedding of `CONFIDENCE_THRESHOLDS.medium` (0.4). -/
def CONFIDENCE_THRESHOLD_MEDIUM : ℚ := 2 / 5

/-- Embedding of `calculateConfidenceLevel`
(`src/detection/flagScoring.ts:49-57`); scores are compared against the
two threshold literals only, so `ℚ` models the JS numbers faithfully. -/
def calculateConfidenceLevel (score : ℚ) : ConfidenceLevel :=
  if score ≥ CONFIDENCE_THRESHOLD_HIGH then .high
  else if score ≥ CONFIDENCE_THRESHOLD_MEDIUM then .medium
  else .low

/-- Embedding of `determineRecommendation`
(`src/detection/flagScoring.ts:62-71`). -/
def determineRecommendation : ConfidenceLevel → Recommendation
  | .high => .use_existing
  | .medium => .ask_user
  | .low => .create_new

/-- Risk buckets (risk patterns module). -/
inductive RiskLevel where
  | critical
  | high
  | medium
  | low
deriving DecidableEq, Repr

/-- Embedding of `calculateRiskLevel` (risk patterns module): pure
threshold bucketing of an accumulated point total. -/
def calculateRiskLevel (score : ℚ) : RiskLevel :=
  if score ≥ 5 then .critical
  else if score ≥ 3 then .high
  else if score ≥ 2 then .medium
  else .low

/-! ### JavaScript string and number primitives used by the URI codec -/

/-- Decimal digit character for `n < 10`. -/
def digitChar (n : Nat) : Char := Char.ofNat (48 + n)

/-- Worker for `natToStr`; the fuel (any bound above `n`) makes the
recursion structural so that concrete URIs evaluate by kernel
reduction. -/
def natToStrAux : Nat → Nat → Str
  | 0, _ => []
  | fuel + 1, n =>
    if n < 10 then [digitChar n]
    else natToStrAux fuel (n / 10) ++ [digitChar (n % 10)]

/-- Decimal rendering of a natural number (`String(n)` for `n ≥ 0`). -/
def natToStr (n : Nat) : Str := natToStrAux (n + 1) n

/-- Model of `String(n)` for an integer-valued JS number. -/
def intToStr (n : Int) : Str :=
  if n < 0 then Char.ofNat 45 :: natToStr (-n).toNat else natToStr n.toNat

/-- Whitespace skipped by `Number.parseInt`. -/
def isJsSpace (c : Char) : Bool :=
  c.toNat == 32 || c.toNat == 9 || c.toNat == 10 || c.toNat == 13 || c.toNat == 12 || c.toNat == 11

/-- Decimal digit test. -/
def isDigitChar (c : Char) : Bool := 48 ≤ c.toNat && c.toNat ≤ 57

/-- Value of a run of decimal digit characters. -/
def natOfDigits (ds : Str) : Nat :=
  ds.foldl (fun acc c => acc * 10 + (c.toNat - 48)) 0

/-- Model of `Number.parseInt(value, 10)`: skip leading whitespace, read
an optional sign and the longest run of decimal digits, ignore the rest;
`none` models the `NaN` result when no digits are found.  (The source
additionally checks `Number.isFinite`; a mathematical integer is always
finite, so the check only excludes the `NaN` case modelled by `none` —
the overflow of 300+-digit literals to `Infinity` is outside this
embedding.) -/
def jsParseInt (s : Str) : Option Int :=
  let t := s.dropWhile isJsSpace
  let signed : Int × Str :=
    match t with
    | c :: r => if c.toNat = 45 then (-1, r) else if c.toNat = 43 then (1, r) else (1, t)
    | [] => (1, [])
  let ds := signed.2.takeWhile isDigitChar
  if ds = [] then none else some (signed.1 * (natOfDigits ds : Int))

/-- Embedding of `parsePositiveInteger` (`unleashResources.ts:325-332`). -/
def parsePositiveInteger (value : Str) : Option Int :=
  match jsParseInt value with
  | some n => if 0 < n then some n else none
  | none => none

/-- Embedding of `parseNonNegativeInteger` (`unleashResources.ts:334-341`). -/
def parseNonNegativeInteger (value : Str) : Option Int :=
  match jsParseInt value with
  | some n => if 0 ≤ n then some n else none
  | none => none

/-- ASCII lowercasing, modelling `String.prototype.toLowerCase` on the
code points relevant to the `asc`/`desc` comparison (non-ASCII letters
never compare equal to either keyword either way). -/
def toLowerAscii (s : Str) : Str :=
  s.map fun c => if 65 ≤ c.toNat && c.toNat ≤ 90 then Char.ofNat (c.toNat + 32) else c

/-- Embedding of `normalizeOrder` (`unleashResources.ts:343-354`);
the `Option`'s `none` models a `null` argument and the inner emptiness
test models JS string falsiness. -/
def normalizeOrder (value : Option Str) : Option JsOrder :=
  match value with
  | none => none
  | some v =>
    if v = [] then none
    else
      let lower := toLowerAscii v
      if lower = lit "asc" then some .asc
      else if lower = lit "desc" then some .desc
      else none

/-! ### Percent-encoding (`encodeURIComponent` / `decodeURIComponent`) -/

/-- Characters `encodeURIComponent` leaves unescaped:
`A-Z a-z 0-9 - _ . ! ~ * ' ( )`. -/
def unreservedChar (c : Char) : Bool :=
  (65 ≤ c.toNat && c.toNat ≤ 90) || (97 ≤ c.toNat && c.toNat ≤ 122) ||
  (48 ≤ c.toNat && c.toNat ≤ 57) ||
  c.toNat == 45 || c.toNat == 95 || c.toNat == 46 || c.toNat == 33 ||
  c.toNat == 126 || c.toNat == 42 || c.toNat == 39 || c.toNat == 40 || c.toNat == 41

/-- Uppercase hexadecimal digit for `n < 16`. -/
def hexDigitUpper (n : Nat) : Char :=
  Char.ofNat (if n < 10 then 48 + n else 55 + n)

/-- Value of a hexadecimal digit character (either case accepted, as by
`decodeURIComponent`). -/
def hexVal (c : Char) : Option Nat :=
  if 48 ≤ c.toNat ∧ c.toNat ≤ 57 then some (c.toNat - 48)
  else if 65 ≤ c.toNat ∧ c.toNat ≤ 70 then some (c.toNat - 55)
  else if 97 ≤ c.toNat ∧ c.toNat ≤ 102 then some (c.toNat - 87)
  else none

/-- UTF-8 bytes of a unicode scalar value. -/
def utf8Bytes (c : Char) : List Nat :=
  if c.toNat < 0x80 then [c.toNat]
  else if c.toNat < 0x800 then [0xC0 + c.toNat / 64, 0x80 + c.toNat % 64]
  else if c.toNat < 0x10000 then
    [0xE0 + c.toNat / 4096, 0x80 + c.toNat / 64 % 64, 0x80 + c.toNat % 64]
  else [0xF0 + c.toNat / 262144, 0x80 + c.toNat / 4096 % 64, 0x80 + c.toNat / 64 % 64,
    0x80 + c.toNat % 64]

/-- Percent-escape of one byte (`%XX`, uppercase hex as produced by
`encodeURIComponent`). -/
def pctByte (b : Nat) : Str :=
  [Char.ofNat 37, hexDigitUpper (b / 16), hexDigitUpper (b % 16)]

/-- Encoding of one character: unreserved characters pass through,
everything else is the percent-escape of its UTF-8 bytes. -/
def encChar (c : Char) : Str :=
  if unreservedChar c then [c] else (utf8Bytes c).flatMap pctByte

/-- Model of `encodeURIComponent`. -/
def encodeURIComponent (s : Str) : Str := s.flatMap encChar

/-- Reads two hexadecimal digits as a byte. -/
def readHexByte : Str → Option (Nat × Str)
  | h1 :: h2 :: r =>
    match hexVal h1, hexVal h2 with
    | some a, some b => some (16 * a + b, r)
    | _, _ => none
  | _ => none

/-- Reads a `%XX` escape. -/
def readPctByte : Str → Option (Nat × Str)
  | c :: r => if c.toNat = 37 then readHexByte r else none
  | [] => none

/-- UTF-8 continuation byte test. -/
def isContByte (b : Nat) : Bool := 0x80 ≤ b && b < 0xC0

/-- Scalar assembled from a two-byte UTF-8 sequence. -/
def utf8Char2 (b1 b2 : Nat) : Char := Char.ofNat ((b1 - 0xC0) * 64 + (b2 - 0x80))

/-- Scalar assembled from a three-byte UTF-8 sequence. -/
def utf8Char3 (b1 b2 b3 : Nat) : Char :=
  Char.ofNat ((b1 - 0xE0) * 4096 + (b2 - 0x80) * 64 + (b3 - 0x80))

/-- Scalar assembled from a four-byte UTF-8 sequence. -/
def utf8Char4 (b1 b2 b3 b4 : Nat) : Char :=
  Char.ofNat ((b1 - 0xF0) * 262144 + (b2 - 0x80) * 4096 + (b3 - 0x80) * 64 + (b4 - 0x80))

/-- Worker for `decodeURIComponent`: literal characters pass through and
`%`-escapes are read as UTF-8 byte sequences (rejecting truncated
escapes, stray continuation bytes, overlong forms, surrogates and
out-of-range leads, on which the JS function throws `URIError`).  The
fuel argument dominates the number of produced characters; each step
consumes at least one input character, so the input length is enough. -/
def decodeLoop : Nat → Str → Option Str
  | _, [] => some []
  | 0, _ :: _ => none
  | fuel + 1, c :: rest =>
    if c.toNat = 37 then
      match readHexByte rest with
      | none => none
      | some (b1, r1) =>
        if b1 < 0x80 then (Char.ofNat b1 :: ·) <$> decodeLoop fuel r1
        else if b1 < 0xC2 then none
        else if b1 < 0xE0 then
          match readPctByte r1 with
          | some (b2, r2) =>
            if isContByte b2 then (utf8Char2 b1 b2 :: ·) <$> decodeLoop fuel r2 else none
          | none => none
        else if b1 < 0xF0 then
          match readPctByte r1 with
          | some (b2, r2) =>
            match readPctByte r2 with
            | some (b3, r3) =>
              if isContByte b2 && isContByte b3 &&
                  !(b1 == 0xE0 && b2 < 0xA0) && !(b1 == 0xED && 0xA0 ≤ b2) then
                (utf8Char3 b1 b2 b3 :: ·) <$> decodeLoop fuel r3
              else none
            | none => none
          | none => none
        else if b1 < 0xF5 then
          match readPctByte r1 with
          | some (b2, r2) =>
            match readPctByte r2 with
            | some (b3, r3) =>
              match readPctByte r3 with
              | some (b4, r4) =>
                if isContByte b2 && isContByte b3 && isContByte b4 &&
                    !(b1 == 0xF0 && b2 < 0x90) && !(b1 == 0xF4 && 0x90 ≤ b2) then
                  (utf8Char4 b1 b2 b3 b4 :: ·) <$> decodeLoop fuel r4
                else none
              | none => none
            | none => none
          | none => none
        else none
    else (c :: ·) <$> decodeLoop fuel rest

/-- Model of `decodeURIComponent`: `none` models the thrown `URIError`. -/
def decodeURIComponentOpt (s : Str) : Option Str := decodeLoop s.length s

/-! ### Query strings (`URLSearchParams`) -/

/-- Characters serialized verbatim by `application/x-www-form-urlencoded`
encoding: `A-Z a-z 0-9 * - . _`. -/
def formSafeChar (c : Char) : Bool :=
  (65 ≤ c.toNat && c.toNat ≤ 90) || (97 ≤ c.toNat && c.toNat ≤ 122) ||
  (48 ≤ c.toNat && c.toNat ≤ 57) ||
  c.toNat == 42 || c.toNat == 45 || c.toNat == 46 || c.toNat == 95

/-- Form-urlencoded serialization of one character (space becomes `+`,
safe characters pass through, the rest become UTF-8 percent escapes). -/
def formEncodeChar (c : Char) : Str :=
  if c.toNat = 32 then [Char.ofNat 43]
  else if formSafeChar c then [c]
  else (utf8Bytes c).flatMap pctByte

/-- Form-urlencoded serialization of a key or value, as performed by
`URLSearchParams.toString`. -/
def formEncode (s : Str) : Str := s.flatMap formEncodeChar

/-- Query-side decoding of a key or value: `+` becomes a space and
percent escapes are decoded.  The WHATWG decoder replaces invalid
sequences with U+FFFD instead of failing; this embedding keeps the
string unchanged in that case, a difference invisible for the plain
ASCII keys and values this codec produces or consumes. -/
def formDecode (s : Str) : Str :=
  let t : Str := s.map fun c => if c.toNat = 43 then Char.ofNat 32 else c
  (decodeURIComponentOpt t).getD t

/-- Splits a string at every character satisfying `p` (separators are
dropped; `n` separators yield `n + 1` pieces). -/
def splitByChar (p : Char → Bool) : Str → List Str
  | [] => [[]]
  | c :: r =>
    if p c then [] :: splitByChar p r
    else
      match splitByChar p r with
      | [] => [[c]]
      | g :: gs => (c :: g) :: gs

/-- Parse of a query string into ordered key/value pairs, as performed
by the `URLSearchParams` constructor: split on `&`, drop empty pieces,
split each piece at its first `=` (a piece without `=` has an empty
value), and form-decode keys and values. -/
def parseQueryPairs (q : Str) : List (Str × Str) :=
  (splitByChar (fun c => c.toNat == 38) q).filterMap fun piece =>
    if piece = [] then none
    else
      let key := piece.takeWhile (fun c => c.toNat != 61)
      let value : Str :=
        match piece.dropWhile (fun c => c.toNat != 61) with
        | [] => []
        | _ :: v => v
      some (formDecode key, formDecode value)

/-- Model of `URLSearchParams.get`: first value for the key, `null`
when absent. -/
def getParam (q : Str) (k : Str) : Option Str :=
  ((parseQueryPairs q).find? fun p => decide (p.1 = k)).map (·.2)

/-- Pagination/sort options carried by the resource URIs
(`{ limit?: number; order?: 'asc' | 'desc'; offset?: number }`). -/
structure ResourceOptions where
  limit : Option Int := none
  order : Option JsOrder := none
  offset : Option Int := none
deriving DecidableEq, Repr

/-- Key/value pairs produced by the three `params.set` calls of the URI
builders, in insertion order (`limit`, `order`, `offset`); a field is
present exactly when the corresponding option is set (the
`typeof … === 'number'` and string-truthiness guards of the source). -/
def buildQueryPairs (options : ResourceOptions) : List (Str × Str) :=
  (options.limit.toList.map fun n => (lit "limit", intToStr n)) ++
  (options.order.toList.map fun ord => (lit "order", ord.toStr)) ++
  (options.offset.toList.map fun n => (lit "offset", intToStr n))

/-- Model of `URLSearchParams.toString`: form-encoded `k=v` pairs joined
by `&`. -/
def serializeQuery (ps : List (Str × Str)) : Str :=
  List.intercalate [Char.ofNat 38] (ps.map fun p => formEncode p.1 ++ Char.ofNat 61 :: formEncode p.2)

/-! ### Resource URI codec -/

/-- Embedding of the `PROJECTS_RESOURCE_URI` constant. -/
def PROJECTS_RESOURCE_URI : Str := lit "unleash://projects"

/-- Embedding of `buildProjectsUri` (`unleashResources.ts:222-239`). -/
def buildProjectsUri (options : ResourceOptions) : Str :=
  let query := serializeQuery (buildQueryPairs options)
  if query = [] then PROJECTS_RESOURCE_URI
  else PROJECTS_RESOURCE_URI ++ Char.ofNat 63 :: query

/-- Embedding of `buildFeatureFlagsUri` (`unleashResources.ts:199-220`). -/
def buildFeatureFlagsUri (projectId : Str) (options : ResourceOptions) : Str :=
  let base := lit "unleash://projects/" ++ encodeURIComponent projectId ++ lit "/feature-flags"
  let query := serializeQuery (buildQueryPairs options)
  if query = [] then base else base ++ Char.ofNat 63 :: query

/-- Leading-segment test on character lists (model of
`String.prototype.startsWith`). -/
def strStartsWith : Str → Str → Bool
  | _, [] => true
  | [], _ :: _ => false
  | c :: s, p :: ps => c = p && strStartsWith s ps

/-- Removes a literal leading segment, returning the remainder. -/
def stripLead : Str → Str → Option Str
  | [], s => some s
  | _ :: _, [] => none
  | p :: ps, c :: s => if c = p then stripLead ps s else none

/-- Embedding of `isProjectsUri` (`unleashResources.ts:121-123`). -/
def isProjectsUri (uri : Str) : Bool :=
  decide (uri = PROJECTS_RESOURCE_URI) ||
  strStartsWith uri (PROJECTS_RESOURCE_URI ++ [Char.ofNat 63])

/-- Embedding of `isFeatureFlagsUri` (`unleashResources.ts:117-119`),
the test against `^unleash:\/\/projects\/[^/]+\/feature-flags(?:\?.*)?$`:
the project segment is the maximal slash-free run after the literal
head, and must be followed by the literal `/feature-flags` and then
either the end or a `?` and arbitrary characters.  (The JS `.` does not
match line terminators; no URI handled by this codec contains one.) -/
def isFeatureFlagsUri (uri : Str) : Bool :=
  match stripLead (lit "unleash://projects/") uri with
  | none => false
  | some rest =>
    let seg := rest.takeWhile fun c => c.toNat != 47
    decide (seg ≠ []) &&
    (match stripLead (lit "/feature-flags") (rest.dropWhile fun c => c.toNat != 47) with
     | none => false
     | some [] => true
     | some (c :: _) => c.toNat == 63)

/-- Embedding of `extractProjectIdFromFeatureUri`
(`unleashResources.ts:155-167`): everything before the first `?`, then
the capture of `^unleash:\/\/projects\/([^/]+)\/feature-flags$`,
percent-decoded with fallback to the raw segment when decoding throws. -/
def extractProjectIdFromFeatureUri (uri : Str) : Option Str :=
  let baseUri := uri.takeWhile fun c => c.toNat != 63
  match stripLead (lit "unleash://projects/") baseUri with
  | none => none
  | some rest =>
    let seg := rest.takeWhile fun c => c.toNat != 47
    if seg = [] then none
    else if (rest.dropWhile fun c => c.toNat != 47) = lit "/feature-flags" then
      some ((decodeURIComponentOpt seg).getD seg)
    else none

/-- Portion of a URI after its first `?` (`uri.indexOf('?')` plus
`uri.slice(queryIndex + 1)`); `none` models index `-1`. -/
def queryPart (uri : Str) : Option Str :=
  if uri.any (fun c => c.toNat == 63) then some ((uri.dropWhile fun c => c.toNat != 63).tail)
  else none

/-- JS string truthiness applied to a nullable string (`param ? … : …`):
`null` and the empty string are falsy. -/
def strTruthy (o : Option Str) : Option Str :=
  match o with
  | none => none
  | some v => if v = [] then none else some v

/-- Embedding of `parseProjectsResourceOptions`
(`unleashResources.ts:125-153`). -/
def parseProjectsResourceOptions (uri : Str) : ResourceOptions :=
  if !isProjectsUri uri then {}
  else
    match queryPart uri with
    | none => {}
    | some q =>
      { limit := (strTruthy (getParam q (lit "limit"))).bind parsePositiveInteger
        order := normalizeOrder (getParam q (lit "order"))
        offset := (strTruthy (getParam q (lit "offset"))).bind parseNonNegativeInteger }

/-- Embedding of `parseFeatureFlagsResourceOptions`
(`unleashResources.ts:169-197`). -/
def parseFeatureFlagsResourceOptions (uri : Str) : ResourceOptions :=
  if !isFeatureFlagsUri uri then {}
  else
    match queryPart uri with
    | none => {}
    | some q =>
      { limit := (strTruthy (getParam q (lit "limit"))).bind parsePositiveInteger
        order :=
          match strTruthy (getParam q (lit "order")) with
          | none => none
          | some v => normalizeOrder (some v)
        offset := (strTruthy (getParam q (lit "offset"))).bind parseNonNegativeInteger }

/-- Modelled from the spec: the normalization of a view request stated
in §4.3 ("limit and offset parse as integers and are discarded if
non-positive (limit) or negative (offset) or non-numeric; order is
case-insensitively normalized"), used as the comparison point of the
round-trip claim C7. -/
def normalizeViewRequest (o : ResourceOptions) : ResourceOptions :=
  { limit := o.limit.bind fun n => if 0 < n then some n else none
    order := o.order
    offset := o.offset.bind fun n => if 0 ≤ n then some n else none }

/-! ### Inventory cache (`unleashResources.ts:356-429`)

The module-level mutable bindings `cachedProjects` and
`cachedFeatureFlags` are threaded as an explicit `CacheState`.  The
asynchronous collaborator calls are modelled by an `Except`-valued
argument carrying the outcome the remote would produce (`Str` stands
for an opaque error value, propagated unchanged); each operation
reports, next to the new state, how many times it invoked the
collaborator, which is decided by the code path taken (0 on a fresh
cache hit, 1 otherwise). -/

/-- Cache slot: `{ data, fetchedAt }`. -/
structure CacheEntry (α : Type u) where
  data : List α
  fetchedAt : Int
deriving DecidableEq, Repr

/-- Combined state of the two module-level caches; the per-project flag
cache (`Map<string, …>`) is an insertion-ordered association list. -/
structure CacheState where
  cachedProjects : Option (CacheEntry UnleashProjectSummary)
  cachedFeatureFlags : List (Str × CacheEntry FeatureFlagSummary)
deriving DecidableEq, Repr

/-- Model of `Map.prototype.get` on the flag cache. -/
def mapGet (m : List (Str × CacheEntry FeatureFlagSummary)) (k : Str) :
    Option (CacheEntry FeatureFlagSummary) :=
  (m.find? fun p => decide (p.1 = k)).map (·.2)

/-- Model of `Map.prototype.set` on the flag cache: replaces the entry
in place when the key exists, otherwise appends it. -/
def mapSet (m : List (Str × CacheEntry FeatureFlagSummary)) (k : Str)
    (v : CacheEntry FeatureFlagSummary) : List (Str × CacheEntry FeatureFlagSummary) :=
  match m with
  | [] => [(k, v)]
  | p :: rest => if p.1 = k then (k, v) :: rest else p :: mapSet rest k v

/-- Embedding of `PROJECTS_CACHE_TTL_MS` (= `FEATURE_FLAGS_CACHE_TTL_MS`). -/
def CACHE_TTL_MS : Int := 60000

/-- Successful payload of a cache read. -/
structure CachedList (α : Type u) where
  data : List α
  fetchedAt : Int
  fromCache : Bool
deriving DecidableEq, Repr

/-- Decidable equality for `Except`, used to evaluate concrete cache
scenarios. -/
instance {ε : Type u} {α : Type v} [DecidableEq ε] [DecidableEq α] :
    DecidableEq (Except ε α) := fun x y =>
  match x, y with
  | .ok a, .ok b =>
    if h : a = b then isTrue (by rw [h])
    else isFalse (by intro hc; cases hc; exact h rfl)
  | .error a, .error b =>
    if h : a = b then isTrue (by rw [h])
    else isFalse (by intro hc; cases hc; exact h rfl)
  | .ok _, .error _ => isFalse (by intro hc; exact Except.noConfusion hc)
  | .error _, .ok _ => isFalse (by intro hc; exact Except.noConfusion hc)

/-- Outcome of one cache operation: the state after the call, the
number of collaborator fetches it performed, and the result or the
propagated error. -/
structure CacheCall (α : Type u) where
  state : CacheState
  fetches : Nat
  result : Except Str (CachedList α)
deriving DecidableEq, Repr

/-- Embedding of `getCachedProjects` (`unleashResources.ts:371-397`):
a fresh entry (`now - fetchedAt < TTL`) is returned as-is with no
fetch; otherwise the collaborator is invoked once, and on success the
entry is replaced wholesale by the fetched data stamped `now`, while on
failure the error propagates and the state is left untouched. -/
def getCachedProjects (s : CacheState) (now : Int)
    (fetch : Except Str (List UnleashProjectSummary)) :
    CacheCall UnleashProjectSummary :=
  match s.cachedProjects with
  | some entry =>
    if now - entry.fetchedAt < CACHE_TTL_MS then
      ⟨s, 0, .ok ⟨entry.data, entry.fetchedAt, true⟩⟩
    else
      match fetch with
      | .error e => ⟨s, 1, .error e⟩
      | .ok data => ⟨{ s with cachedProjects := some ⟨data, now⟩ }, 1, .ok ⟨data, now, false⟩⟩
  | none =>
    match fetch with
    | .error e => ⟨s, 1, .error e⟩
    | .ok data => ⟨{ s with cachedProjects := some ⟨data, now⟩ }, 1, .ok ⟨data, now, false⟩⟩

/-- Embedding of `getCachedFeatureFlags` (`unleashResources.ts:399-429`),
keyed by project id. -/
def getCachedFeatureFlags (s : CacheState) (projectId : Str) (now : Int)
    (fetch : Except Str (List FeatureFlagSummary)) :
    CacheCall FeatureFlagSummary :=
  match mapGet s.cachedFeatureFlags projectId with
  | some cached =>
    if now - cached.fetchedAt < CACHE_TTL_MS then
      ⟨s, 0, .ok ⟨cached.data, cached.fetchedAt, true⟩⟩
    else
      match fetch with
      | .error e => ⟨s, 1, .error e⟩
      | .ok data =>
        ⟨{ s with cachedFeatureFlags := mapSet s.cachedFeatureFlags projectId ⟨data, now⟩ },
          1, .ok ⟨data, now, false⟩⟩
  | none =>
    match fetch with
    | .error e => ⟨s, 1, .error e⟩
    | .ok data =>
      ⟨{ s with cachedFeatureFlags := mapSet s.cachedFeatureFlags projectId ⟨data, now⟩ },
        1, .ok ⟨data, now, false⟩⟩

/-! ### Resource views (`unleashResources.ts:41-115`) -/

/-- Embedding of `DEFAULT_PROJECT_PAGE_SIZE`. -/
def DEFAULT_PROJECT_PAGE_SIZE : Int := 20

/-- Embedding of `DEFAULT_FLAG_PAGE_SIZE`. -/
def DEFAULT_FLAG_PAGE_SIZE : Int := 50

/-- Payload serialized by `readProjectsResource` (the JSON body plus
the `uri` field of the returned contents). -/
structure ProjectsViewPayload where
  uri : Str
  fetchedAt : Int
  cached : Bool
  order : JsOrder
  limit : Int
  offset : Int
  nextOffset : Option Int
  totalProjects : Nat
  projects : List UnleashProjectSummary
deriving DecidableEq, Repr

/-- Payload serialized by `readFeatureFlagsResource`. -/
structure FlagsViewPayload where
  uri : Str
  fetchedAt : Int
  cached : Bool
  projectId : Str
  order : JsOrder
  limit : Int
  offset : Int
  nextOffset : Option Int
  totalFlags : Nat
  flags : List FeatureFlagSummary
deriving DecidableEq, Repr

/-- Embedding of `readProjectsResource` (`unleashResources.ts:41-76`):
cache read, sort of a copy, defaulted limit, pagination; the `catch`
block only logs and rethrows, so errors propagate unchanged. -/
def readProjectsResource (s : CacheState) (now : Int)
    (fetch : Except Str (List UnleashProjectSummary)) (options : ResourceOptions) :
    CacheState × Nat × Except Str ProjectsViewPayload :=
  let call := getCachedProjects s now fetch
  match call.result with
  | .error e => (call.state, call.fetches, .error e)
  | .ok r =>
    let order := options.order.getD .desc
    let sorted := sortProjects r.data order
    let effectiveLimit := options.limit.getD DEFAULT_PROJECT_PAGE_SIZE
    let page := applyPagination sorted (some effectiveLimit) options.offset
    (call.state, call.fetches, .ok
      { uri := buildProjectsUri { options with limit := some effectiveLimit }
        fetchedAt := r.fetchedAt
        cached := r.fromCache
        order := order
        limit := effectiveLimit
        offset := options.offset.getD 0
        nextOffset := page.nextOffset
        totalProjects := r.data.length
        projects := page.slice })

/-- Embedding of `readFeatureFlagsResource` (`unleashResources.ts:78-115`). -/
def readFeatureFlagsResource (s : CacheState) (projectId : Str) (now : Int)
    (fetch : Except Str (List FeatureFlagSummary)) (options : ResourceOptions) :
    CacheState × Nat × Except Str FlagsViewPayload :=
  let call := getCachedFeatureFlags s projectId now fetch
  match call.result with
  | .error e => (call.state, call.fetches, .error e)
  | .ok r =>
    let order := options.order.getD .asc
    let sorted := sortFeatureFlags r.data order
    let effectiveLimit := options.limit.getD DEFAULT_FLAG_PAGE_SIZE
    let page := applyPagination sorted (some effectiveLimit) options.offset
    (call.state, call.fetches, .ok
      { uri := buildFeatureFlagsUri projectId { options with limit := some effectiveLimit }
        fetchedAt := r.fetchedAt
        cached := r.fromCache
        projectId := projectId
        order := order
        limit := effectiveLimit
        offset := options.offset.getD 0
        nextOffset := page.nextOffset
        totalFlags := r.data.length
        flags := page.slice })

/-! ## Lemmas about the stable sort -/

theorem strCmp_neg (a b : Str) : strCmp a b = -strCmp b a := by
  induction a generalizing b with
  | nil => cases b <;> simp [strCmp]
  | cons x xs ih =>
    cases b with
    | nil => simp [strCmp]
    | cons y ys =>
      simp only [strCmp]
      split_ifs <;> first | omega | exact ih ys

theorem insertCmp_perm (cmp : α → α → Int) (x : α) (l : List α) :
    List.Perm (insertCmp cmp x l) (x :: l) := by
  induction l with
  | nil => exact List.Perm.refl _
  | cons y ys ih =>
    simp only [insertCmp]
    by_cases h : cmp x y ≤ 0
    · rw [if_pos h]
    · rw [if_neg h]
      exact (ih.cons y).trans (List.Perm.swap x y ys)

theorem sortCmp_perm (cmp : α → α → Int) (l : List α) : List.Perm (sortCmp cmp l) l := by
  induction l with
  | nil => exact List.Perm.refl _
  | cons x xs ih => exact (insertCmp_perm cmp x (sortCmp cmp xs)).trans (ih.cons x)

theorem mem_sortCmp {cmp : α → α → Int} {l : List α} {a : α} :
    a ∈ sortCmp cmp l ↔ a ∈ l :=
  (sortCmp_perm cmp l).mem_iff

theorem length_sortCmp (cmp : α → α → Int) (l : List α) :
    (sortCmp cmp l).length = l.length :=
  (sortCmp_perm cmp l).length_eq

theorem insertCmp_append_le (cmp : α → α → Int) (x : α) {B : List α}
    (hB : ∀ b ∈ B, cmp x b ≤ 0) (A : List α) :
    insertCmp cmp x (A ++ B) = insertCmp cmp x A ++ B := by
  induction A with
  | nil =>
    cases B with
    | nil => rfl
    | cons b bs =>
      have hb := hB b (by simp)
      simp [insertCmp, hb]
  | cons a as ih =>
    by_cases h : cmp x a ≤ 0
    · simp [insertCmp, h]
    · simp only [List.cons_append, insertCmp, if_neg h, List.append_eq]
      rw [ih]

theorem insertCmp_append_gt (cmp : α → α → Int) (x : α) {A : List α}
    (hA : ∀ a ∈ A, 0 < cmp x a) (B : List α) :
    insertCmp cmp x (A ++ B) = A ++ insertCmp cmp x B := by
  induction A with
  | nil => rfl
  | cons a as ih =>
    have hxa := hA a (by simp)
    have h : ¬cmp x a ≤ 0 := by omega
    simp only [List.cons_append, insertCmp, if_neg h, List.append_eq]
    rw [ih fun y hy => hA y (by simp [hy])]

theorem chain'_insertCmp {cmp : α → α → Int} (hanti : ∀ a b, cmp a b = -cmp b a)
    (x : α) {l : List α} (h : List.Chain' (fun a b => cmp a b ≤ 0) l) :
    List.Chain' (fun a b => cmp a b ≤ 0) (insertCmp cmp x l) := by
  induction l with
  | nil => simp [insertCmp]
  | cons y ys ih =>
    simp only [insertCmp]
    by_cases hxy : cmp x y ≤ 0
    · rw [if_pos hxy]
      exact List.Chain'.cons hxy h
    · rw [if_neg hxy]
      have hyx : cmp y x ≤ 0 := by have := hanti x y; omega
      have hys : List.Chain' (fun a b => cmp a b ≤ 0) ys := h.tail
      cases ys with
      | nil => simp [insertCmp, hyx]
      | cons z zs =>
        simp only [insertCmp]
        by_cases hxz : cmp x z ≤ 0
        · rw [if_pos hxz]
          exact List.Chain'.cons hyx (List.Chain'.cons hxz hys)
        · rw [if_neg hxz]
          have hrec := ih hys
          rw [insertCmp, if_neg hxz] at hrec
          exact List.Chain'.cons (List.chain'_cons.mp h).1 hrec

theorem sortCmp_chain' {cmp : α → α → Int} (hanti : ∀ a b, cmp a b = -cmp b a)
    (l : List α) : List.Chain' (fun a b => cmp a b ≤ 0) (sortCmp cmp l) := by
  induction l with
  | nil => simp [sortCmp]
  | cons x xs ih => exact chain'_insertCmp hanti x ih

theorem projectCompare_neg (d : Int) (a b : UnleashProjectSummary) :
    projectCompare d a b = -projectCompare d b a := by
  unfold projectCompare
  rcases ha : a.createdAt with _ | da <;> rcases hb : b.createdAt with _ | db <;> simp
  · rw [strCmp_neg]; ring
  · by_cases hd : da = db
    · rw [if_pos hd, if_pos hd.symm, strCmp_neg]; ring
    · rw [if_neg hd, if_neg (Ne.symm hd)]; ring

theorem flagCompare_neg (d : Int) (a b : FeatureFlagSummary) :
    flagCompare d a b = -flagCompare d b a := by
  unfold flagCompare
  by_cases hn : a.name.getD [] = b.name.getD []
  · rw [if_pos hn, if_pos hn.symm]
    rcases a.createdAt with _ | da <;> rcases b.createdAt with _ | db <;>
      first
      | (simp; ring)
      | simp
  · rw [if_neg hn, if_neg (Ne.symm hn), strCmp_neg]; ring

theorem sortProjects_split (l : List UnleashProjectSummary) (ord : JsOrder) :
    sortProjects l ord =
      sortProjects (l.filter fun p => p.createdAt.isSome) ord ++
      sortProjects (l.filter fun p => p.createdAt.isNone) ord := by
  induction l with
  | nil => rfl
  | cons p t ih =>
    rcases hp : p.createdAt with _ | d
    · have hf1 : (p :: t).filter (fun p => p.createdAt.isSome) =
          t.filter (fun p => p.createdAt.isSome) := by
        simp [List.filter_cons, hp]
      have hf2 : (p :: t).filter (fun p => p.createdAt.isNone) =
          p :: t.filter (fun p => p.createdAt.isNone) := by
        simp [List.filter_cons, hp]
      rw [hf1, hf2]
      show insertCmp (projectCompare ord.direction) p (sortCmp _ t) = _
      rw [show sortCmp (projectCompare ord.direction) t = sortProjects t ord from rfl, ih]
      rw [insertCmp_append_gt]
      · rfl
      · intro a ha
        rw [show sortProjects (t.filter fun p => p.createdAt.isSome) ord =
              sortCmp (projectCompare ord.direction) (t.filter fun p => p.createdAt.isSome)
            from rfl, mem_sortCmp, List.mem_filter] at ha
        rcases hd : a.createdAt with _ | da
        · rw [hd] at ha; simp at ha
        · simp [projectCompare, hp, hd]
    · have hf1 : (p :: t).filter (fun p => p.createdAt.isSome) =
          p :: t.filter (fun p => p.createdAt.isSome) := by
        simp [List.filter_cons, hp]
      have hf2 : (p :: t).filter (fun p => p.createdAt.isNone) =
          t.filter (fun p => p.createdAt.isNone) := by
        simp [List.filter_cons, hp]
      rw [hf1, hf2]
      show insertCmp (projectCompare ord.direction) p (sortCmp _ t) = _
      rw [show sortCmp (projectCompare ord.direction) t = sortProjects t ord from rfl, ih]
      rw [insertCmp_append_le]
      · rfl
      · intro b hb
        rw [show sortProjects (t.filter fun p => p.createdAt.isNone) ord =
              sortCmp (projectCompare ord.direction) (t.filter fun p => p.createdAt.isNone)
            from rfl, mem_sortCmp, List.mem_filter] at hb
        rcases hd : b.createdAt with _ | db
        · simp [projectCompare, hp, hd]
        · rw [hd] at hb; simp at hb

/-! ## C5 — project sort order for undated entries -/

/-- C5 (counterexample): the claim asserts that for the §8 scenario
projects `[{id:"a", createdAt: undefined}, {id:"b", createdAt:
"2024-01-01"}]`, order = asc yields `[a, b]`; `sortProjects` actually
returns `[b, a]`, because its comparator puts dated entries before
undated ones regardless of the requested direction. -/
theorem c5_counterexample :
    sortProjects
      [⟨lit "a", lit "a", none, none, none⟩,
       ⟨lit "b", lit "b", none, none, some 1704067200000⟩] .asc ≠
      [⟨lit "a", lit "a", none, none, none⟩,
       ⟨lit "b", lit "b", none, none, some 1704067200000⟩] := by
  decide

/-- C5 (amended): in `sortProjects` undated entries sort after dated
entries in both directions (the sorted list is the sorted dated entries
followed by the sorted undated entries, and the whole is a permutation
of the input); ties — both a pair of undated entries and a pair of
dated entries with equal parsed dates — break by case-sensitive name
comparison in the requested direction; on the §8 scenario both
order = desc and order = asc yield `[b, a]`. -/
theorem c5_sortProjects_undated_after_dated
    (l : List UnleashProjectSummary) (ord : JsOrder) (a b : UnleashProjectSummary) :
    List.Perm (sortProjects l ord) l
  ∧ sortProjects l ord =
      sortProjects (l.filter fun p => p.createdAt.isSome) ord ++
      sortProjects (l.filter fun p => p.createdAt.isNone) ord
  ∧ (a.createdAt = none → b.createdAt = none →
      sortProjects [a, b] ord =
        (if strCmp a.name b.name * ord.direction ≤ 0 then [a, b] else [b, a]))
  ∧ (∀ d, a.createdAt = some d → b.createdAt = some d →
      sortProjects [a, b] ord =
        (if strCmp a.name b.name * ord.direction ≤ 0 then [a, b] else [b, a]))
  ∧ sortProjects
      [⟨lit "a", lit "a", none, none, none⟩,
       ⟨lit "b", lit "b", none, none, some 1704067200000⟩] .desc =
      [⟨lit "b", lit "b", none, none, some 1704067200000⟩,
       ⟨lit "a", lit "a", none, none, none⟩]
  ∧ sortProjects
      [⟨lit "a", lit "a", none, none, none⟩,
       ⟨lit "b", lit "b", none, none, some 1704067200000⟩] .asc =
      [⟨lit "b", lit "b", none, none, some 1704067200000⟩,
       ⟨lit "a", lit "a", none, none, none⟩] := by
  refine ⟨sortCmp_perm _ l, sortProjects_split l ord, ?_, ?_, by decide, by decide⟩
  · intro ha hb
    simp [sortProjects, sortCmp, insertCmp, projectCompare, ha, hb]
  · intro d hda hdb
    simp [sortProjects, sortCmp, insertCmp, projectCompare, hda, hdb]

/-- C5 (witness): the amended theorem applied to a concrete pair of
undated projects and a concrete pair of dated projects sharing the same
timestamp. -/
theorem c5_witness :
    sortProjects
      [⟨lit "x", lit "x", none, none, none⟩, ⟨lit "y", lit "y", none, none, none⟩] .asc =
      (if strCmp (lit "x") (lit "y") * JsOrder.asc.direction ≤ 0 then
        [(⟨lit "x", lit "x", none, none, none⟩ : UnleashProjectSummary),
         ⟨lit "y", lit "y", none, none, none⟩]
      else
        [⟨lit "y", lit "y", none, none, none⟩, ⟨lit "x", lit "x", none, none, none⟩])
  ∧ sortProjects
      [⟨lit "x", lit "x", none, none, some 7⟩, ⟨lit "y", lit "y", none, none, some 7⟩]
      .desc =
      (if strCmp (lit "x") (lit "y") * JsOrder.desc.direction ≤ 0 then
        [(⟨lit "x", lit "x", none, none, some 7⟩ : UnleashProjectSummary),
         ⟨lit "y", lit "y", none, none, some 7⟩]
      else
        [⟨lit "y", lit "y", none, none, some 7⟩, ⟨lit "x", lit "x", none, none, some 7⟩]) :=
  ⟨(c5_sortProjects_undated_after_dated []
      .asc ⟨lit "x", lit "x", none, none, none⟩
      ⟨lit "y", lit "y", none, none, none⟩).2.2.1 rfl rfl,
   (c5_sortProjects_undated_after_dated []
      .desc ⟨lit "x", lit "x", none, none, some 7⟩
      ⟨lit "y", lit "y", none, none, some 7⟩).2.2.2.1 7 rfl rfl⟩

/-! ## C6 — feature flag sort tie-break -/

/-- C6 (counterexample): the claim asserts that ties on identical names
break by parsed `createdAt` ascending regardless of the outer order, so
two same-name flags with timestamps 1 and 2 would stay `[first, second]`
under order = desc; `sortFeatureFlags` actually swaps them, because the
tie-break multiplies the date difference by the direction. -/
theorem c6_counterexample :
    sortFeatureFlags
      [⟨some (lit "f"), none, [], none, none, some 1⟩,
       ⟨some (lit "f"), none, [], none, none, some 2⟩] .desc ≠
      [⟨some (lit "f"), none, [], none, none, some 1⟩,
       ⟨some (lit "f"), none, [], none, none, some 2⟩] := by
  decide

/-- C6 (amended): `sortFeatureFlags` returns a permutation of its input
that is adjacently sorted by its comparator; the primary key is the
(defaulted) flag name lexicographically in the requested direction; ties
on identical names break by parsed `createdAt` in the requested
direction (ascending for order = asc, descending for order = desc) when
both dates parse, and pairs with a missing or equal date keep their
original relative order. -/
theorem c6_sortFeatureFlags_tiebreak
    (l : List FeatureFlagSummary) (ord : JsOrder) (a b : FeatureFlagSummary) :
    List.Perm (sortFeatureFlags l ord) l
  ∧ List.Chain' (fun x y => flagCompare ord.direction x y ≤ 0) (sortFeatureFlags l ord)
  ∧ (a.name.getD [] = b.name.getD [] → ∀ da db, a.createdAt = some da → b.createdAt = some db →
      sortFeatureFlags [a, b] ord = (if (da - db) * ord.direction ≤ 0 then [a, b] else [b, a]))
  ∧ (a.name.getD [] = b.name.getD [] →
      (a.createdAt = none ∨ b.createdAt = none ∨ a.createdAt = b.createdAt) →
      sortFeatureFlags [a, b] ord = [a, b])
  ∧ (a.name.getD [] ≠ b.name.getD [] →
      sortFeatureFlags [a, b] ord =
        (if strCmp (a.name.getD []) (b.name.getD []) * ord.direction ≤ 0 then [a, b]
         else [b, a])) := by
  refine ⟨sortCmp_perm _ l, sortCmp_chain' (flagCompare_neg ord.direction) l, ?_, ?_, ?_⟩
  · intro hn da db hda hdb
    simp [sortFeatureFlags, sortCmp, insertCmp, flagCompare, hn, hda, hdb]
  · intro hn hd
    rcases hd with hd | hd | hd
    · simp [sortFeatureFlags, sortCmp, insertCmp, flagCompare, hn, hd]
    · simp [sortFeatureFlags, sortCmp, insertCmp, flagCompare, hn, hd]
    · rcases hb : b.createdAt with _ | db
      · simp [sortFeatureFlags, sortCmp, insertCmp, flagCompare, hn, hd, hb]
      · rw [hb] at hd
        simp [sortFeatureFlags, sortCmp, insertCmp, flagCompare, hn, hd, hb]
  · intro hn
    simp [sortFeatureFlags, sortCmp, insertCmp, flagCompare, hn]

/-- C6 (witness): the amended theorem applied to two concrete same-name
flags with parse-able dates 1 and 2 under order = asc. -/
theorem c6_witness :
    sortFeatureFlags
      [⟨some (lit "f"), none, [], none, none, some 1⟩,
       ⟨some (lit "f"), none, [], none, none, some 2⟩] .asc =
      (if ((1 : Int) - 2) * JsOrder.asc.direction ≤ 0 then
        [(⟨some (lit "f"), none, [], none, none, some 1⟩ : FeatureFlagSummary),
         ⟨some (lit "f"), none, [], none, none, some 2⟩]
      else
        [⟨some (lit "f"), none, [], none, none, some 2⟩,
         ⟨some (lit "f"), none, [], none, none, some 1⟩]) :=
  (c6_sortFeatureFlags_tiebreak [] .asc
    ⟨some (lit "f"), none, [], none, none, some 1⟩
    ⟨some (lit "f"), none, [], none, none, some 2⟩).2.2.1 rfl 1 2 rfl rfl

/-! ## C8 — confidence classifier -/

/-- C8: `calculateConfidenceLevel` returns `high` iff score ≥ 0.7,
`medium` iff 0.4 ≤ score < 0.7 and `low` iff score < 0.4;
`determineRecommendation` maps high to `use_existing`, medium to
`ask_user` and low to `create_new`; boundary values behave as the spec
states. -/
theorem c8_confidence_classifier (s : ℚ) :
    (calculateConfidenceLevel s = .high ↔ 7/10 ≤ s)
  ∧ (calculateConfidenceLevel s = .medium ↔ 2/5 ≤ s ∧ s < 7/10)
  ∧ (calculateConfidenceLevel s = .low ↔ s < 2/5)
  ∧ determineRecommendation .high = .use_existing
  ∧ determineRecommendation .medium = .ask_user
  ∧ determineRecommendation .low = .create_new
  ∧ calculateConfidenceLevel (7/10) = .high
  ∧ calculateConfidenceLevel (6999/10000) = .medium
  ∧ calculateConfidenceLevel (4/10) = .medium
  ∧ calculateConfidenceLevel (39999/100000) = .low := by
  unfold calculateConfidenceLevel CONFIDENCE_THRESHOLD_HIGH CONFIDENCE_THRESHOLD_MEDIUM
  refine ⟨?_, ?_, ?_, rfl, rfl, rfl, by norm_num, by norm_num, by norm_num, by norm_num⟩ <;>
  · split_ifs <;> simp_all <;> linarith

/-! ## C9 — risk classifier -/

/-- C9: `calculateRiskLevel` returns `critical` iff points ≥ 5, `high`
iff 3 ≤ points < 5, `medium` iff 2 ≤ points < 3 and `low` iff
points < 2, for every integer point total; the spec's boundary values
evaluate as stated. -/
theorem c9_risk_classifier (p : ℤ) :
    (calculateRiskLevel (p : ℚ) = .critical ↔ 5 ≤ p)
  ∧ (calculateRiskLevel (p : ℚ) = .high ↔ 3 ≤ p ∧ p < 5)
  ∧ (calculateRiskLevel (p : ℚ) = .medium ↔ 2 ≤ p ∧ p < 3)
  ∧ (calculateRiskLevel (p : ℚ) = .low ↔ p < 2)
  ∧ calculateRiskLevel 5 = .critical
  ∧ calculateRiskLevel 4 = .high
  ∧ calculateRiskLevel 2 = .medium
  ∧ calculateRiskLevel 1 = .low := by
  have e5 : ((5 : ℚ) ≤ (p : ℚ)) ↔ (5 : ℤ) ≤ p := by exact_mod_cast Iff.rfl
  have e3 : ((3 : ℚ) ≤ (p : ℚ)) ↔ (3 : ℤ) ≤ p := by exact_mod_cast Iff.rfl
  have e2 : ((2 : ℚ) ≤ (p : ℚ)) ↔ (2 : ℤ) ≤ p := by exact_mod_cast Iff.rfl
  refine ⟨?_, ?_, ?_, ?_, by norm_num [calculateRiskLevel], by norm_num [calculateRiskLevel],
    by norm_num [calculateRiskLevel], by norm_num [calculateRiskLevel]⟩ <;>
  · unfold calculateRiskLevel
    split_ifs with h1 h2 h3 <;> simp_all [ge_iff_le] <;> omega

/-! ## Lemmas about `natToStr` -/

theorem natToStrAux_congr : ∀ fuel fuel' n, n < fuel → n < fuel' →
    natToStrAux fuel n = natToStrAux fuel' n := by
  intro fuel
  induction fuel using Nat.strong_induction_on with
  | _ fuel ih =>
    intro fuel' n hn hn'
    match fuel, fuel' with
    | f + 1, f' + 1 =>
      simp only [natToStrAux]
      by_cases h : n < 10
      · rw [if_pos h, if_pos h]
      · rw [if_neg h, if_neg h]
        have hdiv : n / 10 < f := by omega
        have hdiv' : n / 10 < f' := by omega
        rw [ih f (by omega) f' (n / 10) hdiv hdiv']

theorem natToStr_eq (n : Nat) :
    natToStr n = if n < 10 then [digitChar n]
      else natToStr (n / 10) ++ [digitChar (n % 10)] := by
  have estep : natToStrAux (n + 1) n =
      if n < 10 then [digitChar n] else natToStrAux n (n / 10) ++ [digitChar (n % 10)] := rfl
  by_cases h : n < 10
  · rw [if_pos h]
    unfold natToStr
    rw [estep, if_pos h]
  · rw [if_neg h]
    unfold natToStr
    rw [estep, if_neg h,
      natToStrAux_congr n (n / 10 + 1) (n / 10) (by omega) (by omega)]

/-! ## C3 — pagination postcondition -/

/-- C3: for every collection, natural-number offset and optional
natural-number limit, `applyPagination` returns exactly the half-open
slice `items[offset : offset + limit]` (`items[offset:]` when the limit
is absent), and `nextOffset` is `offset + limit` precisely when
`offset + limit < totalCount` (also when the limit exceeds the total),
absent otherwise and always absent without a limit; an offset at or
beyond the total yields an empty slice and no `nextOffset`. -/
theorem c3_applyPagination_postcondition (items : List α) (off : Nat) (lim : Option Nat) :
    (applyPagination items (lim.map fun n => (n : Int)) (some (off : Int))).slice =
      (match lim with
       | some l => (items.drop off).take l
       | none => items.drop off)
  ∧ (∀ l, lim = some l →
      (applyPagination items (lim.map fun n => (n : Int)) (some (off : Int))).nextOffset =
        (if off + l < items.length then some ((off + l : Nat) : Int) else none))
  ∧ (applyPagination items none (some (off : Int))).nextOffset = none
  ∧ (items.length ≤ off →
      (applyPagination items (lim.map fun n => (n : Int)) (some (off : Int))).slice = []
      ∧ (applyPagination items (lim.map fun n => (n : Int)) (some (off : Int))).nextOffset
          = none) := by
  have hmaxo : max (0 : Int) (off : Int) = (off : Int) := max_eq_right (by positivity)
  refine ⟨?_, ?_, ?_, ?_⟩
  · rcases lim with _ | l
    · simp [applyPagination, hmaxo]
    · have hmaxl : max (0 : Int) (l : Int) = (l : Int) := max_eq_right (by positivity)
      simp [applyPagination, hmaxo, hmaxl]
  · rintro l rfl
    have hmaxl : max (0 : Int) (l : Int) = (l : Int) := max_eq_right (by positivity)
    simp [applyPagination, hmaxo, hmaxl]
    norm_cast
  · simp [applyPagination, hmaxo]
  · intro hoff
    constructor
    · rcases lim with _ | l
      · simp [applyPagination, hmaxo, List.drop_eq_nil_of_le hoff]
      · have hmaxl : max (0 : Int) (l : Int) = (l : Int) := max_eq_right (by positivity)
        simp [applyPagination, hmaxo, hmaxl, List.drop_eq_nil_of_le hoff]
    · rcases lim with _ | l
      · simp [applyPagination, hmaxo]
      · have hmaxl : max (0 : Int) (l : Int) = (l : Int) := max_eq_right (by positivity)
        simp [applyPagination, hmaxo, hmaxl]
        exact_mod_cast (by omega : items.length ≤ off + l)

/-- C3 (witness): the postcondition applied to a concrete three-element
collection with offset 1 and limit 1: the slice is the middle element
and the continuation offset is 2. -/
theorem c3_witness :
    (applyPagination [(10 : Int), 20, 30] (some (1 : Nat) |>.map fun n => (n : Int))
        (some ((1 : Nat) : Int))).slice = [20]
  ∧ (applyPagination [(10 : Int), 20, 30] (some (1 : Nat) |>.map fun n => (n : Int))
        (some ((1 : Nat) : Int))).nextOffset = some 2 := by
  have h := c3_applyPagination_postcondition [(10 : Int), 20, 30] 1 (some 1)
  refine ⟨by simpa using h.1, ?_⟩
  have h2 := h.2.1 1 rfl
  simpa using h2

/-! ## Cache lemmas -/

theorem mapGet_mapSet_self (m : List (Str × CacheEntry FeatureFlagSummary)) (k : Str)
    (v : CacheEntry FeatureFlagSummary) : mapGet (mapSet m k v) k = some v := by
  induction m with
  | nil => simp [mapGet, mapSet]
  | cons p rest ih =>
    by_cases h : p.1 = k
    · simp [mapGet, mapSet, h]
    · simp only [mapSet, if_neg h]
      simp only [mapGet, List.find?_cons] at ih ⊢
      rw [show decide (p.1 = k) = false by simp [h]]
      exact ih

theorem getCachedProjects_ok_entry {s : CacheState} {now : Int}
    {fetch : Except Str (List UnleashProjectSummary)} {r : CachedList UnleashProjectSummary}
    (h : (getCachedProjects s now fetch).result = .ok r) :
    (getCachedProjects s now fetch).state.cachedProjects = some ⟨r.data, r.fetchedAt⟩ := by
  rcases hc : s.cachedProjects with _ | entry
  · simp only [getCachedProjects, hc] at h ⊢
    rcases fetch with e | data
    · exact absurd h (by simp)
    · have h2 := Except.ok.inj h
      subst h2
      rfl
  · simp only [getCachedProjects, hc] at h ⊢
    by_cases hf : now - entry.fetchedAt < CACHE_TTL_MS
    · rw [if_pos hf] at h ⊢
      have h2 := Except.ok.inj h
      subst h2
      exact hc
    · rw [if_neg hf] at h ⊢
      rcases fetch with e | data
      · exact absurd h (by simp)
      · have h2 := Except.ok.inj h
        subst h2
        rfl

theorem getCachedFeatureFlags_ok_entry {s : CacheState} {pid : Str} {now : Int}
    {fetch : Except Str (List FeatureFlagSummary)} {r : CachedList FeatureFlagSummary}
    (h : (getCachedFeatureFlags s pid now fetch).result = .ok r) :
    mapGet (getCachedFeatureFlags s pid now fetch).state.cachedFeatureFlags pid =
      some ⟨r.data, r.fetchedAt⟩ := by
  rcases hc : mapGet s.cachedFeatureFlags pid with _ | entry
  · simp only [getCachedFeatureFlags, hc] at h ⊢
    rcases fetch with e | data
    · exact absurd h (by simp)
    · have h2 := Except.ok.inj h
      subst h2
      exact mapGet_mapSet_self _ _ _
  · simp only [getCachedFeatureFlags, hc] at h ⊢
    by_cases hf : now - entry.fetchedAt < CACHE_TTL_MS
    · rw [if_pos hf] at h ⊢
      have h2 := Except.ok.inj h
      subst h2
      exact hc
    · rw [if_neg hf] at h ⊢
      rcases fetch with e | data
      · exact absurd h (by simp)
      · have h2 := Except.ok.inj h
        subst h2
        exact mapGet_mapSet_self _ _ _

theorem getCachedProjects_fresh {s : CacheState} {entry : CacheEntry UnleashProjectSummary}
    {now : Int} (fetch : Except Str (List UnleashProjectSummary))
    (he : s.cachedProjects = some entry) (hf : now - entry.fetchedAt < CACHE_TTL_MS) :
    getCachedProjects s now fetch = ⟨s, 0, .ok ⟨entry.data, entry.fetchedAt, true⟩⟩ := by
  simp only [getCachedProjects, he]
  rw [if_pos hf]

theorem getCachedProjects_stale_ok {s : CacheState} {now : Int}
    (hstale : ∀ entry, s.cachedProjects = some entry → CACHE_TTL_MS ≤ now - entry.fetchedAt)
    (data : List UnleashProjectSummary) :
    getCachedProjects s now (.ok data) =
      ⟨{ s with cachedProjects := some ⟨data, now⟩ }, 1, .ok ⟨data, now, false⟩⟩ := by
  rcases hc : s.cachedProjects with _ | entry
  · simp only [getCachedProjects, hc]
  · have := hstale entry hc
    simp only [getCachedProjects, hc]
    rw [if_neg (by omega)]

theorem getCachedProjects_stale_error {s : CacheState} {now : Int}
    (hstale : ∀ entry, s.cachedProjects = some entry → CACHE_TTL_MS ≤ now - entry.fetchedAt)
    (e : Str) : getCachedProjects s now (.error e) = ⟨s, 1, .error e⟩ := by
  rcases hc : s.cachedProjects with _ | entry
  · simp only [getCachedProjects, hc]
  · have := hstale entry hc
    simp only [getCachedProjects, hc]
    rw [if_neg (by omega)]

theorem getCachedFeatureFlags_fresh {s : CacheState} {pid : Str}
    {entry : CacheEntry FeatureFlagSummary} {now : Int}
    (fetch : Except Str (List FeatureFlagSummary))
    (he : mapGet s.cachedFeatureFlags pid = some entry)
    (hf : now - entry.fetchedAt < CACHE_TTL_MS) :
    getCachedFeatureFlags s pid now fetch = ⟨s, 0, .ok ⟨entry.data, entry.fetchedAt, true⟩⟩ := by
  simp only [getCachedFeatureFlags, he]
  rw [if_pos hf]

theorem getCachedFeatureFlags_stale_ok {s : CacheState} {pid : Str} {now : Int}
    (hstale : ∀ entry, mapGet s.cachedFeatureFlags pid = some entry →
      CACHE_TTL_MS ≤ now - entry.fetchedAt)
    (data : List FeatureFlagSummary) :
    getCachedFeatureFlags s pid now (.ok data) =
      ⟨{ s with cachedFeatureFlags := mapSet s.cachedFeatureFlags pid ⟨data, now⟩ }, 1,
        .ok ⟨data, now, false⟩⟩ := by
  rcases hc : mapGet s.cachedFeatureFlags pid with _ | entry
  · simp only [getCachedFeatureFlags, hc]
  · have := hstale entry hc
    simp only [getCachedFeatureFlags, hc]
    rw [if_neg (by omega)]

theorem getCachedFeatureFlags_stale_error {s : CacheState} {pid : Str} {now : Int}
    (hstale : ∀ entry, mapGet s.cachedFeatureFlags pid = some entry →
      CACHE_TTL_MS ≤ now - entry.fetchedAt)
    (e : Str) : getCachedFeatureFlags s pid now (.error e) = ⟨s, 1, .error e⟩ := by
  rcases hc : mapGet s.cachedFeatureFlags pid with _ | entry
  · simp only [getCachedFeatureFlags, hc]
  · have := hstale entry hc
    simp only [getCachedFeatureFlags, hc]
    rw [if_neg (by omega)]

theorem readProjectsResource_state (s : CacheState) (now : Int)
    (fetch : Except Str (List UnleashProjectSummary)) (options : ResourceOptions) :
    (readProjectsResource s now fetch options).1 = (getCachedProjects s now fetch).state := by
  unfold readProjectsResource
  rcases h : (getCachedProjects s now fetch).result with e | r <;> simp [h]

theorem readFeatureFlagsResource_state (s : CacheState) (pid : Str) (now : Int)
    (fetch : Except Str (List FeatureFlagSummary)) (options : ResourceOptions) :
    (readFeatureFlagsResource s pid now fetch options).1 =
      (getCachedFeatureFlags s pid now fetch).state := by
  unfold readFeatureFlagsResource
  rcases h : (getCachedFeatureFlags s pid now fetch).result with e | r <;> simp [h]

/-! ## C1 — cache freshness and idempotence -/

/-- C1: an entry is fresh iff `now - fetchedAt < 60000`; a read that
finds a fresh entry returns the stored data with `fromCache = true` and
performs no fetch; a read whose entry is absent or expired performs
exactly one fetch and, on success, replaces the entry wholesale with
the fetched data stamped `now`, returning `fromCache = false`; hence a
second read of the same collection key within the TTL window of the
first, without an intervening write, returns the identical data with
`fromCache = true` and no fetch.  Stated for both collection keys. -/
theorem c1_cache_freshness_idempotence
    (s : CacheState) (now now2 : Int) (pid : Str)
    (fetch fetch2 : Except Str (List UnleashProjectSummary))
    (gfetch gfetch2 : Except Str (List FeatureFlagSummary)) :
    (∀ entry, s.cachedProjects = some entry → now - entry.fetchedAt < CACHE_TTL_MS →
      getCachedProjects s now fetch = ⟨s, 0, .ok ⟨entry.data, entry.fetchedAt, true⟩⟩)
  ∧ ((∀ entry, s.cachedProjects = some entry → CACHE_TTL_MS ≤ now - entry.fetchedAt) →
      ∀ data, fetch = .ok data →
      getCachedProjects s now fetch =
        ⟨{ s with cachedProjects := some ⟨data, now⟩ }, 1, .ok ⟨data, now, false⟩⟩)
  ∧ (∀ r1, (getCachedProjects s now fetch).result = .ok r1 →
      now2 - r1.fetchedAt < CACHE_TTL_MS →
      getCachedProjects (getCachedProjects s now fetch).state now2 fetch2 =
        ⟨(getCachedProjects s now fetch).state, 0, .ok ⟨r1.data, r1.fetchedAt, true⟩⟩)
  ∧ (∀ entry, mapGet s.cachedFeatureFlags pid = some entry →
      now - entry.fetchedAt < CACHE_TTL_MS →
      getCachedFeatureFlags s pid now gfetch = ⟨s, 0, .ok ⟨entry.data, entry.fetchedAt, true⟩⟩)
  ∧ ((∀ entry, mapGet s.cachedFeatureFlags pid = some entry →
        CACHE_TTL_MS ≤ now - entry.fetchedAt) →
      ∀ data, gfetch = .ok data →
      getCachedFeatureFlags s pid now gfetch =
        ⟨{ s with cachedFeatureFlags := mapSet s.cachedFeatureFlags pid ⟨data, now⟩ }, 1,
          .ok ⟨data, now, false⟩⟩)
  ∧ (∀ r1, (getCachedFeatureFlags s pid now gfetch).result = .ok r1 →
      now2 - r1.fetchedAt < CACHE_TTL_MS →
      getCachedFeatureFlags (getCachedFeatureFlags s pid now gfetch).state pid now2 gfetch2 =
        ⟨(getCachedFeatureFlags s pid now gfetch).state, 0, .ok ⟨r1.data, r1.fetchedAt, true⟩⟩) := by
  refine ⟨?_, ?_, ?_, ?_, ?_, ?_⟩
  · intro entry he hf
    exact getCachedProjects_fresh fetch he hf
  · rintro hstale data rfl
    exact getCachedProjects_stale_ok hstale data
  · intro r1 hok hf2
    exact getCachedProjects_fresh fetch2 (getCachedProjects_ok_entry hok) hf2
  · intro entry he hf
    exact getCachedFeatureFlags_fresh gfetch he hf
  · rintro hstale data rfl
    exact getCachedFeatureFlags_stale_ok hstale data
  · intro r1 hok hf2
    exact getCachedFeatureFlags_fresh gfetch2 (getCachedFeatureFlags_ok_entry hok) hf2

/-- C1 (witness): a concrete fresh hit — an entry fetched at time 5 read
at time 10 is served from the cache with no fetch, even though the
collaborator would fail. -/
theorem c1_witness :
    getCachedProjects ⟨some ⟨[], 5⟩, []⟩ 10 (.error (lit "down")) =
      ⟨⟨some ⟨[], 5⟩, []⟩, 0, .ok ⟨[], 5, true⟩⟩ :=
  (c1_cache_freshness_idempotence ⟨some ⟨[], 5⟩, []⟩ 10 0 [] (.error (lit "down"))
    (.error (lit "down")) (.error []) (.error [])).1 ⟨[], 5⟩ rfl (by decide)

/-! ## C2 — fetch-failure atomicity -/

/-- C2: when the entry for a collection key is absent or stale and the
remote fetch fails, the error propagates unchanged, the cache state is
exactly as before the call (the stale entry is neither evicted nor
returned), and the next call retries the fetch — a subsequent call on
the resulting state, with the entry still absent or stale, performs a
fetch again and succeeds with the fresh data.  Stated for both
collection keys. -/
theorem c2_fetch_failure_atomicity
    (s : CacheState) (now now2 : Int) (e : Str) (pid : Str)
    (hstale : ∀ entry, s.cachedProjects = some entry → CACHE_TTL_MS ≤ now - entry.fetchedAt)
    (hfstale : ∀ entry, mapGet s.cachedFeatureFlags pid = some entry →
      CACHE_TTL_MS ≤ now - entry.fetchedAt)
    (hstale2 : ∀ entry, s.cachedProjects = some entry → CACHE_TTL_MS ≤ now2 - entry.fetchedAt)
    (hfstale2 : ∀ entry, mapGet s.cachedFeatureFlags pid = some entry →
      CACHE_TTL_MS ≤ now2 - entry.fetchedAt) :
    getCachedProjects s now (.error e) = ⟨s, 1, .error e⟩
  ∧ getCachedFeatureFlags s pid now (.error e) = ⟨s, 1, .error e⟩
  ∧ (∀ data, getCachedProjects (getCachedProjects s now (.error e)).state now2 (.ok data) =
      ⟨{ s with cachedProjects := some ⟨data, now2⟩ }, 1, .ok ⟨data, now2, false⟩⟩)
  ∧ (∀ data,
      getCachedFeatureFlags (getCachedFeatureFlags s pid now (.error e)).state pid now2
          (.ok data) =
        ⟨{ s with cachedFeatureFlags := mapSet s.cachedFeatureFlags pid ⟨data, now2⟩ }, 1,
          .ok ⟨data, now2, false⟩⟩) := by
  have hp := getCachedProjects_stale_error hstale e
  have hf := getCachedFeatureFlags_stale_error hfstale e
  refine ⟨hp, hf, ?_, ?_⟩
  · intro data
    rw [hp]
    exact getCachedProjects_stale_ok hstale2 data
  · intro data
    rw [hf]
    exact getCachedFeatureFlags_stale_ok hfstale2 data

/-- C2 (witness): a concrete failing fetch on a stale entry — the state
is untouched and the same error value comes back; the retry with a
working collaborator then succeeds. -/
theorem c2_witness :
    getCachedProjects ⟨some ⟨[], 0⟩, []⟩ 60000 (.error (lit "boom")) =
      ⟨⟨some ⟨[], 0⟩, []⟩, 1, .error (lit "boom")⟩
  ∧ getCachedProjects
      (getCachedProjects ⟨some ⟨[], 0⟩, []⟩ 60000 (.error (lit "boom"))).state 60001
      (.ok [⟨lit "p", lit "p", none, none, none⟩]) =
      ⟨⟨some ⟨[⟨lit "p", lit "p", none, none, none⟩], 60001⟩, []⟩, 1,
        .ok ⟨[⟨lit "p", lit "p", none, none, none⟩], 60001, false⟩⟩ := by
  have h := c2_fetch_failure_atomicity ⟨some ⟨[], 0⟩, []⟩ 60000 60001 (lit "boom") []
    (by intro entry h; injection h with h2; cases h2; decide)
    (by intro entry h; simp [mapGet] at h)
    (by intro entry h; injection h with h2; cases h2; decide)
    (by intro entry h; simp [mapGet] at h)
  exact ⟨h.1, h.2.2.1 [⟨lit "p", lit "p", none, none, none⟩]⟩

/-! ## C10 — reads and cache state -/

/-- C10 (counterexample): the claim says every call to
`readProjectsResource` leaves the cached entry's data and `fetchedAt`
unchanged; a read that finds the entry expired (fetched at 0, read at
60000) replaces it with the fetched data and the new timestamp, so the
cache state after the call differs from the state before it. -/
theorem c10_counterexample :
    (readProjectsResource ⟨some ⟨[], 0⟩, []⟩ 60000
        (.ok [⟨lit "p", lit "p", none, none, none⟩]) {}).1 ≠
      ⟨some ⟨[], 0⟩, []⟩ := by
  decide

/-- C10 (amended): a view read served from a fresh cache entry leaves
the cache state exactly unchanged — sorting operates on a copy of the
cached array and pagination uses a non-mutating slice, so the stored
collection is never reordered or sliced by a read; a read that does
fetch (entry absent or expired) replaces the entry with the fetched
sequence itself, exactly as fetched and stamped with the read time,
never with the sorted or paginated projection; a read whose fetch fails
leaves the state unchanged.  Stated for both view reads. -/
theorem c10_reads_preserve_cache
    (s : CacheState) (now : Int) (pid : Str) (options : ResourceOptions)
    (fetch : Except Str (List UnleashProjectSummary))
    (gfetch : Except Str (List FeatureFlagSummary)) :
    (∀ entry, s.cachedProjects = some entry → now - entry.fetchedAt < CACHE_TTL_MS →
      (readProjectsResource s now fetch options).1 = s)
  ∧ ((∀ entry, s.cachedProjects = some entry → CACHE_TTL_MS ≤ now - entry.fetchedAt) →
      ∀ data, fetch = .ok data →
      (readProjectsResource s now fetch options).1 =
        { s with cachedProjects := some ⟨data, now⟩ })
  ∧ (∀ e, fetch = .error e → (readProjectsResource s now fetch options).1 = s)
  ∧ (∀ entry, mapGet s.cachedFeatureFlags pid = some entry →
      now - entry.fetchedAt < CACHE_TTL_MS →
      (readFeatureFlagsResource s pid now gfetch options).1 = s)
  ∧ ((∀ entry, mapGet s.cachedFeatureFlags pid = some entry →
        CACHE_TTL_MS ≤ now - entry.fetchedAt) →
      ∀ data, gfetch = .ok data →
      (readFeatureFlagsResource s pid now gfetch options).1 =
        { s with cachedFeatureFlags := mapSet s.cachedFeatureFlags pid ⟨data, now⟩ })
  ∧ (∀ e, gfetch = .error e → (readFeatureFlagsResource s pid now gfetch options).1 = s) := by
  refine ⟨?_, ?_, ?_, ?_, ?_, ?_⟩
  · intro entry he hf
    rw [readProjectsResource_state, getCachedProjects_fresh fetch he hf]
  · rintro hstale data rfl
    rw [readProjectsResource_state, getCachedProjects_stale_ok hstale data]
  · rintro e rfl
    rcases hc : s.cachedProjects with _ | entry
    · rw [readProjectsResource_state]
      simp only [getCachedProjects, hc]
    · rw [readProjectsResource_state]
      simp only [getCachedProjects, hc]
      split_ifs <;> rfl
  · intro entry he hf
    rw [readFeatureFlagsResource_state, getCachedFeatureFlags_fresh gfetch he hf]
  · rintro hstale data rfl
    rw [readFeatureFlagsResource_state, getCachedFeatureFlags_stale_ok hstale data]
  · rintro e rfl
    rcases hc : mapGet s.cachedFeatureFlags pid with _ | entry
    · rw [readFeatureFlagsResource_state]
      simp only [getCachedFeatureFlags, hc]
    · rw [readFeatureFlagsResource_state]
      simp only [getCachedFeatureFlags, hc]
      split_ifs <;> rfl

/-- C10 (witness): a concrete fresh read leaves the concrete state
untouched. -/
theorem c10_witness :
    (readProjectsResource ⟨some ⟨[⟨lit "p", lit "p", none, none, none⟩], 5⟩, []⟩ 10
        (.error (lit "down")) {}).1 =
      ⟨some ⟨[⟨lit "p", lit "p", none, none, none⟩], 5⟩, []⟩ :=
  (c10_reads_preserve_cache ⟨some ⟨[⟨lit "p", lit "p", none, none, none⟩], 5⟩, []⟩ 10 [] {}
    (.error (lit "down")) (.error [])).1 ⟨[⟨lit "p", lit "p", none, none, none⟩], 5⟩ rfl
    (by decide)

/-! ## C4 — limit leniency -/

theorem applyPagination_slice_ne_nil {α : Type u} {items : List α} {lim : Int}
    (hlim : 0 < lim) (off : Option Int)
    (hlt : ((off.map fun o => max 0 o).getD 0).toNat < items.length) :
    (applyPagination items (some lim) off).slice ≠ [] := by
  have hmax : max (0 : Int) lim = lim := max_eq_right hlim.le
  simp only [applyPagination, Option.map_some', hmax]
  intro hnil
  have hlen := congrArg List.length hnil
  simp [List.length_take, List.length_drop] at hlen
  omega

/-- C4: a limit parameter supplied at the URI boundary that parses to a
non-positive integer, or does not parse to a number at all, is discarded
by `parsePositiveInteger` (treated as unspecified), so the view read
behaves exactly as if no limit were supplied and falls back to the
default page size — 20 for projects, 50 for flags — and the returned
slice is non-empty whenever the clamped offset lies within the
collection: a non-positive or non-finite limit never produces a
zero-item slice. -/
theorem c4_limit_leniency (v : Str)
    (hv : ∀ k, jsParseInt v = some k → k ≤ 0)
    (s : CacheState) (now : Int) (pid : Str) (ord : Option JsOrder) (off : Option Int)
    (fetch : Except Str (List UnleashProjectSummary))
    (gfetch : Except Str (List FeatureFlagSummary)) :
    parsePositiveInteger v = none
  ∧ readProjectsResource s now fetch ⟨parsePositiveInteger v, ord, off⟩ =
      readProjectsResource s now fetch ⟨none, ord, off⟩
  ∧ (∀ p, (readProjectsResource s now fetch ⟨none, ord, off⟩).2.2 = .ok p →
      p.limit = DEFAULT_PROJECT_PAGE_SIZE ∧
      (((off.map fun o => max 0 o).getD 0).toNat < p.totalProjects → p.projects ≠ []))
  ∧ readFeatureFlagsResource s pid now gfetch ⟨parsePositiveInteger v, ord, off⟩ =
      readFeatureFlagsResource s pid now gfetch ⟨none, ord, off⟩
  ∧ (∀ p, (readFeatureFlagsResource s pid now gfetch ⟨none, ord, off⟩).2.2 = .ok p →
      p.limit = DEFAULT_FLAG_PAGE_SIZE ∧
      (((off.map fun o => max 0 o).getD 0).toNat < p.totalFlags → p.flags ≠ [])) := by
  have h1 : parsePositiveInteger v = none := by
    unfold parsePositiveInteger
    rcases hj : jsParseInt v with _ | k
    · rfl
    · have hk := hv k hj
      show (if 0 < k then some k else none) = none
      rw [if_neg (by omega)]
  refine ⟨h1, by rw [h1], ?_, by rw [h1], ?_⟩
  · intro p hp
    simp only [readProjectsResource] at hp
    rcases hres : (getCachedProjects s now fetch).result with e | r <;> rw [hres] at hp
    · exact absurd hp (by simp)
    · have h2 := Except.ok.inj hp
      subst h2
      refine ⟨rfl, fun hlt => ?_⟩
      have hlen := length_sortCmp (projectCompare (ord.getD JsOrder.desc).direction) r.data
      exact applyPagination_slice_ne_nil (by decide) off (by
        rw [show sortProjects r.data (ord.getD JsOrder.desc) =
          sortCmp (projectCompare (ord.getD JsOrder.desc).direction) r.data from rfl, hlen]
        exact hlt)
  · intro p hp
    simp only [readFeatureFlagsResource] at hp
    rcases hres : (getCachedFeatureFlags s pid now gfetch).result with e | r <;> rw [hres] at hp
    · exact absurd hp (by simp)
    · have h2 := Except.ok.inj hp
      subst h2
      refine ⟨rfl, fun hlt => ?_⟩
      have hlen := length_sortCmp (flagCompare (ord.getD JsOrder.asc).direction) r.data
      exact applyPagination_slice_ne_nil (by decide) off (by
        rw [show sortFeatureFlags r.data (ord.getD JsOrder.asc) =
          sortCmp (flagCompare (ord.getD JsOrder.asc).direction) r.data from rfl, hlen]
        exact hlt)

/-- C4 (witness): the concrete limit string `"0"` parses to nothing and
the read behaves as with no limit at all. -/
theorem c4_witness :
    parsePositiveInteger (lit "0") = none
  ∧ readProjectsResource ⟨none, []⟩ 0 (.ok [⟨lit "p", lit "p", none, none, none⟩])
      ⟨parsePositiveInteger (lit "0"), none, none⟩ =
    readProjectsResource ⟨none, []⟩ 0 (.ok [⟨lit "p", lit "p", none, none, none⟩])
      ⟨none, none, none⟩ := by
  have h := c4_limit_leniency (lit "0")
    (by
      intro k hk
      rw [show jsParseInt (lit "0") = some 0 from by decide] at hk
      injection hk with hk2
      omega)
    ⟨none, []⟩ 0 [] none none (.ok [⟨lit "p", lit "p", none, none, none⟩]) (.error [])
  exact ⟨h.1, h.2.1⟩

/-! ## Percent-encoding lemmas (towards C7) -/

theorem toNat_ofNat_valid {n : Nat} (h : n.isValidChar) : (Char.ofNat n).toNat = n := by
  rw [Char.ofNat, dif_pos h]
  rfl

theorem toNat_ofNat_small {n : Nat} (h : n < 0xD800) : (Char.ofNat n).toNat = n :=
  toNat_ofNat_valid (Or.inl h)

theorem char_toNat_valid (c : Char) : c.toNat.isValidChar := c.valid

theorem unreservedChar_ne_pct {c : Char} (h : unreservedChar c = true) : c.toNat ≠ 37 := by
  simp only [unreservedChar, Bool.or_eq_true, Bool.and_eq_true, decide_eq_true_eq,
    beq_iff_eq] at h
  omega

theorem unreservedChar_safe {c : Char} (h : unreservedChar c = true) :
    c.toNat ≠ 47 ∧ c.toNat ≠ 63 := by
  simp only [unreservedChar, Bool.or_eq_true, Bool.and_eq_true, decide_eq_true_eq,
    beq_iff_eq] at h
  omega

theorem hexVal_hexDigitUpper {n : Nat} (h : n < 16) : hexVal (hexDigitUpper n) = some n := by
  interval_cases n <;> decide

theorem hexDigitUpper_toNat {n : Nat} (h : n < 16) :
    (hexDigitUpper n).toNat = if n < 10 then 48 + n else 55 + n := by
  unfold hexDigitUpper
  split_ifs with h1 <;> rw [toNat_ofNat_small (by omega)]

theorem readHexByte_hex {b : Nat} (h : b < 256) (r : Str) :
    readHexByte (hexDigitUpper (b / 16) :: hexDigitUpper (b % 16) :: r) = some (b, r) := by
  simp [readHexByte, hexVal_hexDigitUpper (show b / 16 < 16 by omega),
    hexVal_hexDigitUpper (show b % 16 < 16 by omega)]
  omega

theorem readPctByte_pct {b : Nat} (h : b < 256) (r : Str) :
    readPctByte (pctByte b ++ r) = some (b, r) := by
  simp only [pctByte, List.cons_append, List.nil_append]
  simp [readPctByte, show (Char.ofNat 37).toNat = 37 from by decide, readHexByte_hex h]

theorem utf8Bytes_lt_256 {c : Char} : ∀ b ∈ utf8Bytes c, b < 256 := by
  intro b hb
  have hv : c.toNat < 0x110000 := by
    rcases char_toNat_valid c with h | ⟨_, h⟩ <;> omega
  unfold utf8Bytes at hb
  split_ifs at hb <;> simp at hb <;> rcases hb with rfl | rfl | rfl | rfl <;> omega

theorem encChar_safe {c : Char} : ∀ x ∈ encChar c, x.toNat ≠ 47 ∧ x.toNat ≠ 63 := by
  intro x hx
  unfold encChar at hx
  by_cases h : unreservedChar c
  · rw [if_pos h] at hx
    simp at hx
    subst hx
    exact unreservedChar_safe h
  · rw [if_neg h] at hx
    rw [List.mem_flatMap] at hx
    obtain ⟨b, hb, hxb⟩ := hx
    have hb256 := utf8Bytes_lt_256 b hb
    simp [pctByte] at hxb
    rcases hxb with rfl | rfl | rfl
    · constructor <;> decide
    · rw [hexDigitUpper_toNat (show b / 16 < 16 by omega)]
      split_ifs <;> omega
    · rw [hexDigitUpper_toNat (show b % 16 < 16 by omega)]
      split_ifs <;> omega

theorem encodeURIComponent_safe {s : Str} :
    ∀ x ∈ encodeURIComponent s, x.toNat ≠ 47 ∧ x.toNat ≠ 63 := by
  intro x hx
  rw [encodeURIComponent, List.mem_flatMap] at hx
  obtain ⟨c, _, hxc⟩ := hx
  exact encChar_safe x hxc

theorem encChar_ne_nil (c : Char) : encChar c ≠ [] := by
  unfold encChar
  split_ifs with h
  · simp
  · unfold utf8Bytes
    split_ifs <;> simp [pctByte]

theorem encodeURIComponent_ne_nil {s : Str} (h : s ≠ []) : encodeURIComponent s ≠ [] := by
  rcases s with _ | ⟨c, t⟩
  · exact absurd rfl h
  · rw [encodeURIComponent, List.flatMap_cons]
    intro hnil
    rcases List.append_eq_nil.mp hnil with ⟨h1, _⟩
    exact encChar_ne_nil c h1

theorem decodeLoop_encChar (c : Char) (fuel : Nat) (rest : Str) :
    decodeLoop (fuel + 1) (encChar c ++ rest) = (c :: ·) <$> decodeLoop fuel rest := by
  by_cases hu : unreservedChar c
  · have h37 := unreservedChar_ne_pct hu
    rw [show encChar c = [c] from by rw [encChar, if_pos hu], List.singleton_append]
    simp only [decodeLoop, if_neg h37]
  · rw [show encChar c = (utf8Bytes c).flatMap pctByte from by rw [encChar, if_neg hu]]
    have hval := char_toNat_valid c
    have hv17 : c.toNat < 0x110000 := by rcases hval with h | ⟨_, h⟩ <;> omega
    have hsur : c.toNat < 0xD800 ∨ 0xDFFF < c.toNat := by
      rcases hval with h | ⟨h, _⟩ <;> omega
    rcases Nat.lt_or_ge c.toNat 0x80 with h1 | h1
    · rw [show utf8Bytes c = [c.toNat] from by rw [utf8Bytes, if_pos h1]]
      simp only [List.flatMap_cons, List.flatMap_nil, List.append_nil, pctByte,
        List.cons_append, List.nil_append]
      simp only [decodeLoop, show (Char.ofNat 37).toNat = 37 from by decide, if_pos rfl,
        readHexByte_hex (show c.toNat < 256 by omega), if_pos h1, if_true,
        Char.ofNat_toNat]
    · rcases Nat.lt_or_ge c.toNat 0x800 with h2 | h2
      · have hc2 : utf8Char2 (0xC0 + c.toNat / 64) (0x80 + c.toNat % 64) = c := by
          unfold utf8Char2
          rw [show (0xC0 + c.toNat / 64 - 0xC0) * 64 + (0x80 + c.toNat % 64 - 0x80) =
            c.toNat by omega, Char.ofNat_toNat]
        have hcont : isContByte (0x80 + c.toNat % 64) = true := by
          simp only [isContByte, Bool.and_eq_true, decide_eq_true_eq]
          omega
        rw [show utf8Bytes c = [0xC0 + c.toNat / 64, 0x80 + c.toNat % 64] from by
          rw [utf8Bytes, if_neg (by omega), if_pos h2]]
        simp only [List.flatMap_cons, List.flatMap_nil, List.append_nil, List.append_assoc]
        rw [show pctByte (0xC0 + c.toNat / 64) ++ (pctByte (0x80 + c.toNat % 64) ++ rest) =
            Char.ofNat 37 :: hexDigitUpper ((0xC0 + c.toNat / 64) / 16) ::
              hexDigitUpper ((0xC0 + c.toNat / 64) % 16) ::
              (pctByte (0x80 + c.toNat % 64) ++ rest) from by simp [pctByte]]
        simp only [decodeLoop, show (Char.ofNat 37).toNat = 37 from by decide, if_pos rfl,
          readHexByte_hex (show 0xC0 + c.toNat / 64 < 256 by omega)]
        rw [if_neg (show ¬(0xC0 + c.toNat / 64 < 0x80) by omega),
          if_neg (show ¬(0xC0 + c.toNat / 64 < 0xC2) by omega),
          if_pos (show 0xC0 + c.toNat / 64 < 0xE0 by omega)]
        simp only [readPctByte_pct (show 0x80 + c.toNat % 64 < 256 by omega), hcont,
          if_true, hc2]
      · rcases Nat.lt_or_ge c.toNat 0x10000 with h3 | h3
        · have hc3 : utf8Char3 (0xE0 + c.toNat / 4096) (0x80 + c.toNat / 64 % 64)
              (0x80 + c.toNat % 64) = c := by
            unfold utf8Char3
            rw [show (0xE0 + c.toNat / 4096 - 0xE0) * 4096 +
              (0x80 + c.toNat / 64 % 64 - 0x80) * 64 + (0x80 + c.toNat % 64 - 0x80) =
              c.toNat by omega, Char.ofNat_toNat]
          have hcond : (isContByte (0x80 + c.toNat / 64 % 64) &&
              isContByte (0x80 + c.toNat % 64) &&
              !(0xE0 + c.toNat / 4096 == 0xE0 && decide (0x80 + c.toNat / 64 % 64 < 0xA0)) &&
              !(0xE0 + c.toNat / 4096 == 0xED &&
                decide (0xA0 ≤ 0x80 + c.toNat / 64 % 64))) = true := by
            simp only [isContByte, Bool.and_eq_true, Bool.not_eq_true', Bool.and_eq_false_iff,
              decide_eq_true_eq, decide_eq_false_iff_not, beq_iff_eq, beq_eq_false_iff_ne,
              ne_eq, not_lt, not_le]
            omega
          rw [show utf8Bytes c =
              [0xE0 + c.toNat / 4096, 0x80 + c.toNat / 64 % 64, 0x80 + c.toNat % 64] from by
            rw [utf8Bytes, if_neg (by omega), if_neg (by omega), if_pos h3]]
          simp only [List.flatMap_cons, List.flatMap_nil, List.append_nil, List.append_assoc]
          rw [show pctByte (0xE0 + c.toNat / 4096) ++ (pctByte (0x80 + c.toNat / 64 % 64) ++
              (pctByte (0x80 + c.toNat % 64) ++ rest)) =
              Char.ofNat 37 :: hexDigitUpper ((0xE0 + c.toNat / 4096) / 16) ::
                hexDigitUpper ((0xE0 + c.toNat / 4096) % 16) ::
                (pctByte (0x80 + c.toNat / 64 % 64) ++
                  (pctByte (0x80 + c.toNat % 64) ++ rest)) from by simp [pctByte]]
          simp only [decodeLoop, show (Char.ofNat 37).toNat = 37 from by decide, if_pos rfl,
            readHexByte_hex (show 0xE0 + c.toNat / 4096 < 256 by omega)]
          rw [if_neg (show ¬(0xE0 + c.toNat / 4096 < 0x80) by omega),
            if_neg (show ¬(0xE0 + c.toNat / 4096 < 0xC2) by omega),
            if_neg (show ¬(0xE0 + c.toNat / 4096 < 0xE0) by omega),
            if_pos (show 0xE0 + c.toNat / 4096 < 0xF0 by omega)]
          simp only [readPctByte_pct (show 0x80 + c.toNat / 64 % 64 < 256 by omega),
            readPctByte_pct (show 0x80 + c.toNat % 64 < 256 by omega), hcond, if_true, hc3]
        · have hc4 : utf8Char4 (0xF0 + c.toNat / 262144) (0x80 + c.toNat / 4096 % 64)
              (0x80 + c.toNat / 64 % 64) (0x80 + c.toNat % 64) = c := by
            unfold utf8Char4
            rw [show (0xF0 + c.toNat / 262144 - 0xF0) * 262144 +
              (0x80 + c.toNat / 4096 % 64 - 0x80) * 4096 +
              (0x80 + c.toNat / 64 % 64 - 0x80) * 64 + (0x80 + c.toNat % 64 - 0x80) =
              c.toNat by omega, Char.ofNat_toNat]
          have hcond : (isContByte (0x80 + c.toNat / 4096 % 64) &&
              isContByte (0x80 + c.toNat / 64 % 64) && isContByte (0x80 + c.toNat % 64) &&
              !(0xF0 + c.toNat / 262144 == 0xF0 &&
                decide (0x80 + c.toNat / 4096 % 64 < 0x90)) &&
              !(0xF0 + c.toNat / 262144 == 0xF4 &&
                decide (0x90 ≤ 0x80 + c.toNat / 4096 % 64))) = true := by
            simp only [isContByte, Bool.and_eq_true, Bool.not_eq_true', Bool.and_eq_false_iff,
              decide_eq_true_eq, decide_eq_false_iff_not, beq_iff_eq, beq_eq_false_iff_ne,
              ne_eq, not_lt, not_le]
            omega
          rw [show utf8Bytes c = [0xF0 + c.toNat / 262144, 0x80 + c.toNat / 4096 % 64,
              0x80 + c.toNat / 64 % 64, 0x80 + c.toNat % 64] from by
            rw [utf8Bytes, if_neg (by omega), if_neg (by omega), if_neg (by omega)]]
          simp only [List.flatMap_cons, List.flatMap_nil, List.append_nil, List.append_assoc]
          rw [show pctByte (0xF0 + c.toNat / 262144) ++ (pctByte (0x80 + c.toNat / 4096 % 64) ++
              (pctByte (0x80 + c.toNat / 64 % 64) ++ (pctByte (0x80 + c.toNat % 64) ++ rest))) =
              Char.ofNat 37 :: hexDigitUpper ((0xF0 + c.toNat / 262144) / 16) ::
                hexDigitUpper ((0xF0 + c.toNat / 262144) % 16) ::
                (pctByte (0x80 + c.toNat / 4096 % 64) ++
                  (pctByte (0x80 + c.toNat / 64 % 64) ++
                    (pctByte (0x80 + c.toNat % 64) ++ rest))) from by simp [pctByte]]
          simp only [decodeLoop, show (Char.ofNat 37).toNat = 37 from by decide, if_pos rfl,
            readHexByte_hex (show 0xF0 + c.toNat / 262144 < 256 by omega)]
          rw [if_neg (show ¬(0xF0 + c.toNat / 262144 < 0x80) by omega),
            if_neg (show ¬(0xF0 + c.toNat / 262144 < 0xC2) by omega),
            if_neg (show ¬(0xF0 + c.toNat / 262144 < 0xE0) by omega),
            if_neg (show ¬(0xF0 + c.toNat / 262144 < 0xF0) by omega),
            if_pos (show 0xF0 + c.toNat / 262144 < 0xF5 by omega)]
          simp only [readPctByte_pct (show 0x80 + c.toNat / 4096 % 64 < 256 by omega),
            readPctByte_pct (show 0x80 + c.toNat / 64 % 64 < 256 by omega),
            readPctByte_pct (show 0x80 + c.toNat % 64 < 256 by omega), hcond, if_true, hc4]

/-! ## String-level round-trip lemmas -/

theorem length_encodeURIComponent_ge (s : Str) :
    s.length ≤ (encodeURIComponent s).length := by
  induction s with
  | nil => simp [encodeURIComponent]
  | cons c t ih =>
    rw [encodeURIComponent, List.flatMap_cons, List.length_append]
    have h1 : 1 ≤ (encChar c).length := by
      rcases h : encChar c with _ | _
      · exact absurd h (encChar_ne_nil c)
      · simp
    rw [show encodeURIComponent t = t.flatMap encChar from rfl] at ih
    simp only [List.length_cons]
    omega

theorem decodeLoop_encode (s : Str) : ∀ (fuel : Nat) (rest : Str),
    decodeLoop (s.length + fuel) (encodeURIComponent s ++ rest) =
      (s ++ ·) <$> decodeLoop fuel rest := by
  induction s with
  | nil =>
    intro fuel rest
    simp [encodeURIComponent]
  | cons c t ih =>
    intro fuel rest
    rw [encodeURIComponent, List.flatMap_cons, List.append_assoc,
      show (c :: t).length + fuel = (t.length + fuel) + 1 from by simp; omega,
      decodeLoop_encChar c (t.length + fuel) (t.flatMap encChar ++ rest),
      show t.flatMap encChar = encodeURIComponent t from rfl, ih fuel rest]
    rcases decodeLoop fuel rest with _ | u <;> simp

theorem decodeURIComponentOpt_encode (s : Str) :
    decodeURIComponentOpt (encodeURIComponent s) = some s := by
  have hge := length_encodeURIComponent_ge s
  have h1 := decodeLoop_encode s ((encodeURIComponent s).length - s.length) []
  rw [List.append_nil] at h1
  rw [decodeURIComponentOpt,
    show (encodeURIComponent s).length =
      s.length + ((encodeURIComponent s).length - s.length) from by omega, h1]
  simp [decodeLoop]

theorem decodeLoop_plain {s : Str} (h : ∀ c ∈ s, c.toNat ≠ 37) :
    ∀ fuel, s.length ≤ fuel → decodeLoop fuel s = some s := by
  induction s with
  | nil => intro fuel _; rcases fuel <;> rfl
  | cons c t ih =>
    intro fuel hf
    obtain ⟨f, rfl⟩ : ∃ f, fuel = f + 1 := ⟨fuel - 1, by simp at hf; omega⟩
    simp only [decodeLoop, if_neg (h c (by simp))]
    rw [ih (fun x hx => h x (by simp [hx])) f (by simp at hf; omega)]
    rfl

theorem decodeURIComponentOpt_plain {s : Str} (h : ∀ c ∈ s, c.toNat ≠ 37) :
    decodeURIComponentOpt s = some s :=
  decodeLoop_plain h s.length le_rfl

theorem formDecode_plain {s : Str} (h : ∀ c ∈ s, c.toNat ≠ 37 ∧ c.toNat ≠ 43) :
    formDecode s = s := by
  have hmap : (s.map fun c => if c.toNat = 43 then Char.ofNat 32 else c) = s := by
    rw [show s = s.map id from by simp]
    simp only [List.map_map, List.map_inj_left]
    intro c hc
    simp [(h c (by simpa using hc)).2]
  show (decodeURIComponentOpt (s.map fun c => if c.toNat = 43 then Char.ofNat 32 else c)).getD
      (s.map fun c => if c.toNat = 43 then Char.ofNat 32 else c) = s
  rw [hmap, decodeURIComponentOpt_plain (fun c hc => (h c hc).1)]
  rfl

theorem formSafe_plain {c : Char} (h : formSafeChar c = true) :
    c.toNat ≠ 37 ∧ c.toNat ≠ 43 ∧ c.toNat ≠ 38 ∧ c.toNat ≠ 61 ∧ c.toNat ≠ 63 ∧
    c.toNat ≠ 47 ∧ c.toNat ≠ 32 := by
  simp only [formSafeChar, Bool.or_eq_true, Bool.and_eq_true, decide_eq_true_eq,
    beq_iff_eq] at h
  omega

theorem formEncode_plain {s : Str} (h : ∀ c ∈ s, formSafeChar c = true) :
    formEncode s = s := by
  induction s with
  | nil => rfl
  | cons c t ih =>
    rw [formEncode, List.flatMap_cons,
      show formEncodeChar c = [c] from by
        rw [formEncodeChar, if_neg (formSafe_plain (h c (by simp))).2.2.2.2.2.2,
          if_pos (h c (by simp))],
      show t.flatMap formEncodeChar = formEncode t from rfl,
      ih (fun x hx => h x (by simp [hx]))]
    rfl

/-! ## Number parsing round trips -/

theorem digitChar_toNat {n : Nat} (h : n < 10) : (digitChar n).toNat = 48 + n :=
  toNat_ofNat_small (by omega)

theorem natToStr_chars (n : Nat) : ∀ c ∈ natToStr n, 48 ≤ c.toNat ∧ c.toNat ≤ 57 := by
  induction n using Nat.strong_induction_on with
  | _ n ih =>
    intro c hc
    rw [natToStr_eq] at hc
    by_cases h : n < 10
    · rw [if_pos h] at hc
      simp at hc
      subst hc
      rw [digitChar_toNat h]
      omega
    · rw [if_neg h] at hc
      rcases List.mem_append.mp hc with hc1 | hc2
      · exact ih (n / 10) (by omega) c hc1
      · simp at hc2
        subst hc2
        rw [digitChar_toNat (by omega)]
        omega

theorem natToStr_ne_nil (n : Nat) : natToStr n ≠ [] := by
  rw [natToStr_eq]
  split_ifs <;> simp

theorem intToStr_chars (n : Int) : ∀ c ∈ intToStr n, c.toNat = 45 ∨ (48 ≤ c.toNat ∧ c.toNat ≤ 57) := by
  intro c hc
  unfold intToStr at hc
  split_ifs at hc
  · simp only [List.mem_cons] at hc
    rcases hc with hc | hc
    · left; rw [hc]; decide
    · right; exact natToStr_chars _ c hc
  · right; exact natToStr_chars _ c hc

theorem intToStr_ne_nil (n : Int) : intToStr n ≠ [] := by
  unfold intToStr
  split_ifs
  · simp
  · exact natToStr_ne_nil _

theorem natOfDigits_append_digit (ds : Str) (c : Char) :
    natOfDigits (ds ++ [c]) = natOfDigits ds * 10 + (c.toNat - 48) := by
  simp [natOfDigits, List.foldl_append]

theorem natOfDigits_natToStr (n : Nat) : natOfDigits (natToStr n) = n := by
  induction n using Nat.strong_induction_on with
  | _ n ih =>
    rw [natToStr_eq]
    by_cases h : n < 10
    · rw [if_pos h]
      simp [natOfDigits, digitChar_toNat h]
    · rw [if_neg h, natOfDigits_append_digit, ih (n / 10) (by omega),
        digitChar_toNat (show n % 10 < 10 by omega)]
      omega

theorem dropWhile_all_false {p : Char → Bool} {l : Str} (h : ∀ c ∈ l, p c = false) :
    l.dropWhile p = l := by
  rcases l with _ | ⟨c, t⟩
  · rfl
  · rw [List.dropWhile_cons, if_neg (by simp [h c (by simp)])]

theorem takeWhile_all_true {p : Char → Bool} {l : Str} (h : ∀ c ∈ l, p c = true) :
    l.takeWhile p = l := by
  induction l with
  | nil => rfl
  | cons c t ih =>
    rw [List.takeWhile_cons, if_pos (by simp [h c (by simp)])]
    rw [ih fun x hx => h x (by simp [hx])]

theorem jsParseInt_natToStr (m : Nat) : jsParseInt (natToStr m) = some (m : Int) := by
  have hchars := natToStr_chars m
  obtain ⟨c, t, hct⟩ : ∃ c t, natToStr m = c :: t := by
    rcases h : natToStr m with _ | ⟨c, t⟩
    · exact absurd h (natToStr_ne_nil m)
    · exact ⟨c, t, rfl⟩
  have hc := hchars c (by rw [hct]; simp)
  unfold jsParseInt
  rw [dropWhile_all_false (fun x hx => by
    have := hchars x hx
    simp [isJsSpace]
    omega)]
  rw [hct]
  simp only [if_neg (show ¬c.toNat = 45 by omega), if_neg (show ¬c.toNat = 43 by omega)]
  rw [← hct, takeWhile_all_true (fun x hx => by
    have := hchars x hx
    simp [isDigitChar]
    omega)]
  rw [if_neg (by rw [hct]; simp), natOfDigits_natToStr]
  simp

theorem jsParseInt_intToStr (n : Int) : jsParseInt (intToStr n) = some n := by
  by_cases hneg : n < 0
  · rw [show intToStr n = Char.ofNat 45 :: natToStr (-n).toNat from by
      rw [intToStr, if_pos hneg]]
    have hchars := natToStr_chars (-n).toNat
    unfold jsParseInt
    rw [dropWhile_all_false (fun x hx => by
      simp at hx
      rcases hx with hx | hx
      · subst hx; decide
      · have := hchars x hx
        simp [isJsSpace]
        omega)]
    simp only [show (Char.ofNat 45).toNat = 45 from by decide, if_pos rfl, if_true]
    rw [takeWhile_all_true (fun x hx => by
      have := hchars x hx
      simp [isDigitChar]
      omega)]
    rw [if_neg (natToStr_ne_nil _), natOfDigits_natToStr]
    simp only [Option.some.injEq]
    omega
  · rw [show intToStr n = natToStr n.toNat from by rw [intToStr, if_neg hneg]]
    rw [jsParseInt_natToStr]
    congr 1
    omega

theorem parsePositiveInteger_intToStr (n : Int) :
    parsePositiveInteger (intToStr n) = if 0 < n then some n else none := by
  unfold parsePositiveInteger
  rw [jsParseInt_intToStr]

theorem parseNonNegativeInteger_intToStr (n : Int) :
    parseNonNegativeInteger (intToStr n) = if 0 ≤ n then some n else none := by
  unfold parseNonNegativeInteger
  rw [jsParseInt_intToStr]

/-! ## Query string assembly lemmas -/

theorem splitByChar_sep_free {p : Char → Bool} {s : Str} (h : ∀ c ∈ s, p c = false) :
    splitByChar p s = [s] := by
  induction s with
  | nil => rfl
  | cons c t ih =>
    rw [splitByChar, if_neg (by simp [h c (by simp)]),
      ih fun x hx => h x (by simp [hx])]

theorem splitByChar_append {p : Char → Bool} {A : Str} (hA : ∀ c ∈ A, p c = false)
    {sep : Char} (hsep : p sep = true) (B : Str) :
    splitByChar p (A ++ sep :: B) = A :: splitByChar p B := by
  induction A with
  | nil =>
    rw [List.nil_append, splitByChar, if_pos hsep]
  | cons a as ih =>
    rw [List.cons_append, splitByChar, if_neg (by simp [hA a (by simp)]),
      ih fun x hx => hA x (by simp [hx])]

theorem intercalate_cons_cons (sep a b : Str) (t : List Str) :
    List.intercalate sep (a :: b :: t) = a ++ sep ++ List.intercalate sep (b :: t) := by
  simp [List.intercalate, List.intersperse_cons_cons]

theorem intercalate_singleton (sep a : Str) : List.intercalate sep [a] = a := by
  simp [List.intercalate]

theorem takeWhile_append_boundary {p : Char → Bool} {A : Str} (hA : ∀ c ∈ A, p c = true)
    {b : Char} (hb : p b = false) (B : Str) :
    (A ++ b :: B).takeWhile p = A := by
  induction A with
  | nil => rw [List.nil_append, List.takeWhile_cons, if_neg (by simp [hb])]
  | cons a as ih =>
    rw [List.cons_append, List.takeWhile_cons, if_pos (by simp [hA a (by simp)]),
      ih fun x hx => hA x (by simp [hx])]

theorem dropWhile_append_boundary {p : Char → Bool} {A : Str} (hA : ∀ c ∈ A, p c = true)
    {b : Char} (hb : p b = false) (B : Str) :
    (A ++ b :: B).dropWhile p = b :: B := by
  induction A with
  | nil => rw [List.nil_append, List.dropWhile_cons, if_neg (by simp [hb])]
  | cons a as ih =>
    rw [List.cons_append, List.dropWhile_cons, if_pos (by simp [hA a (by simp)]),
      ih fun x hx => hA x (by simp [hx])]

theorem stripLead_append (p s : Str) : stripLead p (p ++ s) = some s := by
  induction p with
  | nil => rfl
  | cons a as ih => rw [List.cons_append, stripLead, if_pos rfl, ih]

theorem strStartsWith_append_same (A s pat : Str) :
    strStartsWith (A ++ s) (A ++ pat) = strStartsWith s pat := by
  induction A with
  | nil => rfl
  | cons a as ih =>
    rw [List.cons_append, List.cons_append, strStartsWith]
    simp [ih]

theorem parseQueryPairs_serializeQuery (ps : List (Str × Str))
    (h : ∀ p ∈ ps, (∀ c ∈ p.1, formSafeChar c = true) ∧ (∀ c ∈ p.2, formSafeChar c = true)) :
    parseQueryPairs (serializeQuery ps) = ps := by
  induction ps with
  | nil => rfl
  | cons p t ih =>
    obtain ⟨hk, hv⟩ := h p (by simp)
    have hP38 : ∀ c ∈ p.1 ++ Char.ofNat 61 :: p.2, (fun c => c.toNat == 38) c = false := by
      intro c hc
      rcases List.mem_append.mp hc with h1 | h1
      · simp [(formSafe_plain (hk c h1)).2.2.1]
      · rcases List.mem_cons.mp h1 with h2 | h2
        · subst h2; decide
        · simp [(formSafe_plain (hv c h2)).2.2.1]
    have hkey : (p.1 ++ Char.ofNat 61 :: p.2).takeWhile (fun c => c.toNat != 61) = p.1 :=
      takeWhile_append_boundary
        (fun c hc => by simp [(formSafe_plain (hk c hc)).2.2.2.1]) (by decide) _
    have hval : (p.1 ++ Char.ofNat 61 :: p.2).dropWhile (fun c => c.toNat != 61) =
        Char.ofNat 61 :: p.2 :=
      dropWhile_append_boundary
        (fun c hc => by simp [(formSafe_plain (hk c hc)).2.2.2.1]) (by decide) _
    have hdk : formDecode p.1 = p.1 :=
      formDecode_plain fun c hc =>
        ⟨(formSafe_plain (hk c hc)).1, (formSafe_plain (hk c hc)).2.1⟩
    have hdv : formDecode p.2 = p.2 :=
      formDecode_plain fun c hc =>
        ⟨(formSafe_plain (hv c hc)).1, (formSafe_plain (hv c hc)).2.1⟩
    have henc : formEncode p.1 ++ Char.ofNat 61 :: formEncode p.2 =
        p.1 ++ Char.ofNat 61 :: p.2 := by
      rw [formEncode_plain hk, formEncode_plain hv]
    rcases t with _ | ⟨q, t2⟩
    · rw [show serializeQuery [p] = p.1 ++ Char.ofNat 61 :: p.2 from by
        rw [serializeQuery, List.map_cons, List.map_nil, intercalate_singleton, henc]]
      rw [parseQueryPairs, splitByChar_sep_free hP38, List.filterMap_cons]
      simp only [if_neg (show ¬(p.1 ++ Char.ofNat 61 :: p.2 : Str) = [] by simp), hkey, hval,
        hdk, hdv, List.filterMap_nil]
    · have hser : serializeQuery (p :: q :: t2) =
          (p.1 ++ Char.ofNat 61 :: p.2) ++ Char.ofNat 38 :: serializeQuery (q :: t2) := by
        simp only [serializeQuery, List.map_cons, intercalate_cons_cons, henc,
          List.append_assoc, List.singleton_append]
      rw [hser, parseQueryPairs,
        splitByChar_append hP38 (by decide) (serializeQuery (q :: t2)),
        List.filterMap_cons]
      simp only [if_neg (show ¬(p.1 ++ Char.ofNat 61 :: p.2 : Str) = [] by simp), hkey, hval,
        hdk, hdv]
      have hrec := ih fun x hx => h x (by simp [hx])
      rw [parseQueryPairs] at hrec
      rw [hrec]

/-! ## URI assembly lemmas -/

theorem ffBase_no63 (pid : Str) :
    ∀ c ∈ lit "unleash://projects/" ++ encodeURIComponent pid ++ lit "/feature-flags",
      c.toNat ≠ 63 := by
  intro c hc
  rcases List.mem_append.mp hc with hc1 | hc2
  · rcases List.mem_append.mp hc1 with hc3 | hc4
    · revert hc3
      exact (by decide : ∀ c ∈ lit "unleash://projects/", c.toNat ≠ 63) c
    · exact (encodeURIComponent_safe c hc4).2
  · revert hc2
    exact (by decide : ∀ c ∈ lit "/feature-flags", c.toNat ≠ 63) c

theorem ffTail_shape (qtail : Str) :
    lit "/feature-flags" ++ qtail = Char.ofNat 47 :: (lit "feature-flags" ++ qtail) := by
  rw [show lit "/feature-flags" = Char.ofNat 47 :: lit "feature-flags" from by decide,
    List.cons_append]

theorem isFeatureFlagsUri_build (pid : Str) (hpid : pid ≠ []) (qtail : Str)
    (hqt : qtail = [] ∨ ∃ q, qtail = Char.ofNat 63 :: q) :
    isFeatureFlagsUri ((lit "unleash://projects/" ++ encodeURIComponent pid ++
      lit "/feature-flags") ++ qtail) = true := by
  rw [show (lit "unleash://projects/" ++ encodeURIComponent pid ++ lit "/feature-flags")
      ++ qtail = lit "unleash://projects/" ++
        (encodeURIComponent pid ++ (lit "/feature-flags" ++ qtail)) from by
      simp [List.append_assoc]]
  unfold isFeatureFlagsUri
  simp only [stripLead_append]
  rw [ffTail_shape qtail,
    takeWhile_append_boundary (fun c hc => by simp [(encodeURIComponent_safe c hc).1])
      (by decide) _,
    dropWhile_append_boundary (fun c hc => by simp [(encodeURIComponent_safe c hc).1])
      (by decide) _,
    ← ffTail_shape qtail, stripLead_append]
  rcases hqt with rfl | ⟨q, rfl⟩
  · simp [encodeURIComponent_ne_nil hpid]
  · simp [encodeURIComponent_ne_nil hpid]

theorem isProjectsUri_build (pid : Str) (qtail : Str) :
    isProjectsUri ((lit "unleash://projects/" ++ encodeURIComponent pid ++
      lit "/feature-flags") ++ qtail) = false := by
  have hshape : (lit "unleash://projects/" ++ encodeURIComponent pid ++
      lit "/feature-flags") ++ qtail = lit "unleash://projects" ++
        (Char.ofNat 47 :: (encodeURIComponent pid ++ (lit "/feature-flags" ++ qtail))) := by
    rw [show lit "unleash://projects/" = lit "unleash://projects" ++ [Char.ofNat 47] from
      by decide]
    simp [List.append_assoc]
  rw [hshape]
  unfold isProjectsUri
  rw [show PROJECTS_RESOURCE_URI ++ [Char.ofNat 63] =
    lit "unleash://projects" ++ [Char.ofNat 63] from rfl]
  rw [strStartsWith_append_same]
  have h1 : decide (lit "unleash://projects" ++
      (Char.ofNat 47 :: (encodeURIComponent pid ++ (lit "/feature-flags" ++ qtail))) =
      PROJECTS_RESOURCE_URI) = false := by
    apply decide_eq_false
    intro hcontra
    have := congrArg List.length hcontra
    simp [PROJECTS_RESOURCE_URI, lit] at this
  rw [h1]
  simp [strStartsWith]

theorem extractProjectId_build (pid : Str) (hpid : pid ≠ []) (qtail : Str)
    (hqt : qtail = [] ∨ ∃ q, qtail = Char.ofNat 63 :: q) :
    extractProjectIdFromFeatureUri ((lit "unleash://projects/" ++ encodeURIComponent pid ++
      lit "/feature-flags") ++ qtail) = some pid := by
  have hbase63 := ffBase_no63 pid
  have hbaseUri : (((lit "unleash://projects/" ++ encodeURIComponent pid ++
      lit "/feature-flags") ++ qtail).takeWhile fun c => c.toNat != 63) =
      lit "unleash://projects/" ++ encodeURIComponent pid ++ lit "/feature-flags" := by
    rcases hqt with rfl | ⟨q, rfl⟩
    · rw [List.append_nil]
      exact takeWhile_all_true fun c hc => by simp [hbase63 c hc]
    · exact takeWhile_append_boundary (fun c hc => by simp [hbase63 c hc]) (by decide) _
  unfold extractProjectIdFromFeatureUri
  rw [hbaseUri,
    show lit "unleash://projects/" ++ encodeURIComponent pid ++ lit "/feature-flags" =
      lit "unleash://projects/" ++ (encodeURIComponent pid ++
        (Char.ofNat 47 :: lit "feature-flags")) from by
      rw [show lit "/feature-flags" = Char.ofNat 47 :: lit "feature-flags" from by decide]
      simp [List.append_assoc]]
  simp only [stripLead_append]
  rw [takeWhile_append_boundary (fun c hc => by simp [(encodeURIComponent_safe c hc).1])
      (by decide) _,
    dropWhile_append_boundary (fun c hc => by simp [(encodeURIComponent_safe c hc).1])
      (by decide) _]
  rw [if_neg (encodeURIComponent_ne_nil hpid),
    if_pos (show (Char.ofNat 47 :: lit "feature-flags" : Str) = lit "/feature-flags" from
      by decide),
    decodeURIComponentOpt_encode]
  rfl

/-! ## Query lookups for built URIs -/

theorem intToStr_formSafe (n : Int) : ∀ c ∈ intToStr n, formSafeChar c = true := by
  intro c hc
  rcases intToStr_chars n c hc with h | h <;> (simp [formSafeChar]; omega)

theorem toStr_formSafe (o : JsOrder) : ∀ c ∈ o.toStr, formSafeChar c = true := by
  cases o <;> decide

theorem toStr_ne_nil (o : JsOrder) : o.toStr ≠ [] := by
  cases o <;> decide

theorem normalizeOrder_toStr (o : JsOrder) : normalizeOrder (some o.toStr) = some o := by
  cases o <;> decide

theorem buildQueryPairs_safe (opts : ResourceOptions) :
    ∀ p ∈ buildQueryPairs opts,
      (∀ c ∈ p.1, formSafeChar c = true) ∧ (∀ c ∈ p.2, formSafeChar c = true) := by
  intro p hp
  rcases opts with ⟨l, o, f⟩
  unfold buildQueryPairs at hp
  rcases List.mem_append.mp hp with h1 | h4
  · rcases List.mem_append.mp h1 with h2 | h3
    · rcases l with _ | n
      · simp at h2
      · simp at h2
        subst h2
        exact ⟨by show ∀ c ∈ lit "limit", formSafeChar c = true; decide, intToStr_formSafe n⟩
    · rcases o with _ | ov
      · simp at h3
      · simp at h3
        subst h3
        exact ⟨by show ∀ c ∈ lit "order", formSafeChar c = true; decide, toStr_formSafe ov⟩
  · rcases f with _ | n
    · simp at h4
    · simp at h4
      subst h4
      exact ⟨by show ∀ c ∈ lit "offset", formSafeChar c = true; decide, intToStr_formSafe n⟩

theorem serializeQuery_cons_ne_nil (p : Str × Str) (t : List (Str × Str)) :
    serializeQuery (p :: t) ≠ [] := by
  cases t
  · rw [serializeQuery, List.map_cons, List.map_nil, intercalate_singleton]
    simp
  · rw [serializeQuery, List.map_cons, List.map_cons, intercalate_cons_cons]
    simp

theorem getParam_build (l : Option Int) (o : Option JsOrder) (f : Option Int) :
    getParam (serializeQuery (buildQueryPairs ⟨l, o, f⟩)) (lit "limit") = l.map intToStr
  ∧ getParam (serializeQuery (buildQueryPairs ⟨l, o, f⟩)) (lit "order") =
      o.map JsOrder.toStr
  ∧ getParam (serializeQuery (buildQueryPairs ⟨l, o, f⟩)) (lit "offset") = f.map intToStr := by
  have hpairs := parseQueryPairs_serializeQuery (buildQueryPairs ⟨l, o, f⟩)
    (buildQueryPairs_safe _)
  unfold getParam
  rw [hpairs]
  rcases l with _ | ln <;> rcases o with _ | ov <;> rcases f with _ | fv <;>
    simp [buildQueryPairs, List.find?,
      (by decide : (decide ((lit "limit" : Str) = lit "limit")) = true),
      (by decide : (decide ((lit "order" : Str) = lit "limit")) = false),
      (by decide : (decide ((lit "offset" : Str) = lit "limit")) = false),
      (by decide : (decide ((lit "limit" : Str) = lit "order")) = false),
      (by decide : (decide ((lit "order" : Str) = lit "order")) = true),
      (by decide : (decide ((lit "offset" : Str) = lit "order")) = false),
      (by decide : (decide ((lit "limit" : Str) = lit "offset")) = false),
      (by decide : (decide ((lit "order" : Str) = lit "offset")) = false),
      (by decide : (decide ((lit "offset" : Str) = lit "offset")) = true)]

theorem parse_record_eval (l : Option Int) (o : Option JsOrder) (f : Option Int) (q : Str)
    (hl : getParam q (lit "limit") = l.map intToStr)
    (ho : getParam q (lit "order") = o.map JsOrder.toStr)
    (hf : getParam q (lit "offset") = f.map intToStr) :
    ({ limit := (strTruthy (getParam q (lit "limit"))).bind parsePositiveInteger
       order := match strTruthy (getParam q (lit "order")) with
         | none => none
         | some v => normalizeOrder (some v)
       offset := (strTruthy (getParam q (lit "offset"))).bind parseNonNegativeInteger } :
      ResourceOptions) = normalizeViewRequest ⟨l, o, f⟩ := by
  rcases l with _ | ln <;> rcases o with _ | ov <;> rcases f with _ | fv <;>
    simp [hl, ho, hf, strTruthy, intToStr_ne_nil, toStr_ne_nil, normalizeOrder_toStr,
      parsePositiveInteger_intToStr, parseNonNegativeInteger_intToStr, normalizeViewRequest]

theorem queryPart_build (pid q : Str) :
    queryPart ((lit "unleash://projects/" ++ encodeURIComponent pid ++
      lit "/feature-flags") ++ Char.ofNat 63 :: q) = some q := by
  unfold queryPart
  rw [if_pos (by
    rw [List.any_eq_true]
    exact ⟨Char.ofNat 63, by simp, by decide⟩),
    dropWhile_append_boundary (fun c hc => by simp [ffBase_no63 pid c hc]) (by decide) q]
  rfl

theorem queryPart_base_none (pid : Str) :
    queryPart (lit "unleash://projects/" ++ encodeURIComponent pid ++
      lit "/feature-flags") = none := by
  unfold queryPart
  rw [if_neg (by
    rw [List.any_eq_true]
    rintro ⟨c, hc, hc63⟩
    exact ffBase_no63 pid c hc (by simpa using hc63))]

/-! ## C7 — URI codec round trip -/

/-- C7: for every non-empty project id — including ids containing
characters that require percent-encoding, such as a slash or a space —
and every view request, building the feature-flags URI and then
classifying and parsing it recognises the URI as a member of the flags
family (and not of the projects family), recovers the original project
id exactly (percent-encoded on the way out and percent-decoded on the
way in), and recovers the normalized limit/order/offset options (a
non-positive limit and a negative offset are discarded, per the spec's
§4.3 normalization). -/
theorem c7_uri_roundtrip (pid : Str) (hpid : pid ≠ []) (opts : ResourceOptions) :
    isFeatureFlagsUri (buildFeatureFlagsUri pid opts) = true
  ∧ isProjectsUri (buildFeatureFlagsUri pid opts) = false
  ∧ extractProjectIdFromFeatureUri (buildFeatureFlagsUri pid opts) = some pid
  ∧ parseFeatureFlagsResourceOptions (buildFeatureFlagsUri pid opts) =
      normalizeViewRequest opts := by
  have hu : buildFeatureFlagsUri pid opts =
      (lit "unleash://projects/" ++ encodeURIComponent pid ++ lit "/feature-flags") ++
        (if serializeQuery (buildQueryPairs opts) = [] then []
         else Char.ofNat 63 :: serializeQuery (buildQueryPairs opts)) := by
    by_cases h : serializeQuery (buildQueryPairs opts) = [] <;>
      simp [buildFeatureFlagsUri, h]
  have hqt : (if serializeQuery (buildQueryPairs opts) = [] then ([] : Str)
      else Char.ofNat 63 :: serializeQuery (buildQueryPairs opts)) = [] ∨
      ∃ q, (if serializeQuery (buildQueryPairs opts) = [] then ([] : Str)
        else Char.ofNat 63 :: serializeQuery (buildQueryPairs opts)) =
          Char.ofNat 63 :: q := by
    split_ifs
    · exact Or.inl rfl
    · exact Or.inr ⟨_, rfl⟩
  refine ⟨?_, ?_, ?_, ?_⟩
  · rw [hu]
    exact isFeatureFlagsUri_build pid hpid _ hqt
  · rw [hu]
    exact isProjectsUri_build pid _
  · rw [hu]
    exact extractProjectId_build pid hpid _ hqt
  · rcases opts with ⟨l, o, f⟩
    unfold parseFeatureFlagsResourceOptions
    rw [hu, isFeatureFlagsUri_build pid hpid _ hqt]
    simp only [Bool.not_true]
    rw [if_neg (by decide : ¬(false = true))]
    by_cases hq : serializeQuery (buildQueryPairs ⟨l, o, f⟩) = []
    · rw [if_pos hq, List.append_nil, queryPart_base_none]
      have hbq : buildQueryPairs ⟨l, o, f⟩ = [] := by
        rcases h2 : buildQueryPairs ⟨l, o, f⟩ with _ | ⟨p, t⟩
        · rfl
        · rw [h2] at hq
          exact absurd hq (serializeQuery_cons_ne_nil p t)
      rcases l with _ | ln <;> rcases o with _ | ov <;> rcases f with _ | fv <;>
        simp [buildQueryPairs] at hbq ⊢
      rfl
    · rw [if_neg hq, queryPart_build]
      obtain ⟨hl, ho, hf⟩ := getParam_build l o f
      exact parse_record_eval l o f _ hl ho hf

/-- C7 (witness): a concrete project id containing a space and a slash,
with limit 5, order asc and offset 0, survives the round trip. -/
theorem c7_witness :
    extractProjectIdFromFeatureUri
      (buildFeatureFlagsUri (lit "my pr/x") ⟨some 5, some .asc, some 0⟩) =
      some (lit "my pr/x")
  ∧ parseFeatureFlagsResourceOptions
      (buildFeatureFlagsUri (lit "my pr/x") ⟨some 5, some .asc, some 0⟩) =
      normalizeViewRequest ⟨some 5, some .asc, some 0⟩ :=
  ⟨(c7_uri_roundtrip (lit "my pr/x") (by decide) ⟨some 5, some .asc, some 0⟩).2.2.1,
   (c7_uri_roundtrip (lit "my pr/x") (by decide) ⟨some 5, some .asc, some 0⟩).2.2.2⟩
